import Mathlib

/-!
# Verification of the comment-tree reconstruction core of `limen`

This file is a shallow embedding of the comment-tree reconstruction and
stitching pipeline of the `limen` Reddit viewer (the route handler's
`parseComments`, `fetchMoreChildren`, `buildTreeFromFlat`, `insertIntoTree`
functions and the orchestration code in its `POST` handler), together with
theorems settling the specification's claims about it.

Modelling conventions:

* JavaScript objects reached by duck-typed field access are modelled as
  inductives whose `Option` fields record presence *and* well-typedness of a
  field (`none` covers both "absent" and "present with the wrong type",
  exactly the cases the source's `typeof`/`Array.isArray` checks collapse).
* JS `number` is modelled as `Int`: no claim in scope performs arithmetic on
  scores or timestamps, only defaulting.
* `crypto.randomUUID()` is modelled as an opaque constant string `freshId`;
  no claim in scope depends on the value of a generated id.
* `body.trim()` truthiness is modelled by `isBlank` (all characters
  whitespace); the minor difference between the JS and Lean whitespace
  character classes is irrelevant to every claim, which speak of
  "empty or whitespace-only" bodies.
* In-place mutation (`state.count += 1`, `moreStubs.push`, `replies.push`) is
  modelled by explicit state threading; the JS `Map` with its
  insert-order-preserving `set`/`get` is modelled by the association-list
  operations `mapSet`/`mapGet` below.
-/

namespace Limen

/-- `MAX_COMMENTS` from the source. -/
def MAX_COMMENTS : Nat := 2000

/-- `MAX_COMMENT_DEPTH` from the source. -/
def MAX_COMMENT_DEPTH : Nat := 20

/-- `MORE_CHILDREN_BATCH` from the source. -/
def MORE_CHILDREN_BATCH : Nat := 100

/-- Stand-in for `crypto.randomUUID()`: an opaque fresh-id constant. -/
def freshId : String := "00000000-0000-4000-8000-000000000000"

/-- JS `!s.trim()`: `true` iff `s` is empty or whitespace-only. -/
def isBlank (s : String) : Bool := s.data.all Char.isWhitespace

/-- The reconstructed comment entity (`RedditCommentNode` in the source). -/
inductive RedditCommentNode : Type where
  | mk (id : String) (author : String) (body : String)
       (score : Int) (createdUtc : Int)
       (replies : List RedditCommentNode) : RedditCommentNode
deriving Repr

namespace RedditCommentNode

def id : RedditCommentNode → String
  | .mk i _ _ _ _ _ => i

def author : RedditCommentNode → String
  | .mk _ a _ _ _ _ => a

def body : RedditCommentNode → String
  | .mk _ _ b _ _ _ => b

def score : RedditCommentNode → Int
  | .mk _ _ _ s _ _ => s

def createdUtc : RedditCommentNode → Int
  | .mk _ _ _ _ c _ => c

def replies : RedditCommentNode → List RedditCommentNode
  | .mk _ _ _ _ _ r => r

/-- Replace the `replies` field (models `comment.replies.push(...)` results). -/
def withReplies : RedditCommentNode → List RedditCommentNode → RedditCommentNode
  | .mk i a b s c _, r => .mk i a b s c r

end RedditCommentNode

/-- A continuation stub (`MoreStub` in the source). -/
structure MoreStub : Type where
  parentId : String
  childIds : List String
deriving Repr, DecidableEq

mutual
/-- A raw wire entry `{ kind?, data? }` as duck-typed by the source:
both the nested-listing children and the flat `morechildren` things have
this shape. `none` fields model absent or wrongly-typed JSON fields. -/
inductive RawChild : Type where
  | mk (kind : Option String) (data : Option RawData) : RawChild

/-- The `data` record of a raw entry, restricted to the fields the source
reads: `id`, `author`, `body`, `score`, `created_utc` (comment fields),
`children`, `parent_id` (continuation-stub fields), `replies` (nested
listing). -/
inductive RawData : Type where
  | mk (id : Option String) (author : Option String) (body : Option String)
       (score : Option Int) (createdUtc : Option Int)
       (children : Option (List String)) (parentId : Option String)
       (replies : RawRepliesField) : RawData

/-- The `data.replies` field: `absent` covers `undefined`, `""` and any
non-object value; `obj c` is an object whose `data?.children` is `c`. -/
inductive RawRepliesField : Type where
  | absent : RawRepliesField
  | obj (children : RawSeq) : RawRepliesField

/-- An `unknown` value tested with `Array.isArray`: either not an array
(covering `undefined`, objects, strings, ...) or an array of raw entries. -/
inductive RawSeq : Type where
  | notArray : RawSeq
  | arr (items : List RawChild) : RawSeq
end

namespace RawChild

def kind : RawChild → Option String
  | .mk k _ => k

def data : RawChild → Option RawData
  | .mk _ d => d

end RawChild

namespace RawData

def id : RawData → Option String
  | .mk i _ _ _ _ _ _ _ => i

def author : RawData → Option String
  | .mk _ a _ _ _ _ _ _ => a

def body : RawData → Option String
  | .mk _ _ b _ _ _ _ _ => b

def score : RawData → Option Int
  | .mk _ _ _ s _ _ _ _ => s

def createdUtc : RawData → Option Int
  | .mk _ _ _ _ c _ _ _ => c

def children : RawData → Option (List String)
  | .mk _ _ _ _ _ c _ _ => c

def parentId : RawData → Option String
  | .mk _ _ _ _ _ _ p _ => p

def replies : RawData → RawRepliesField
  | .mk _ _ _ _ _ _ _ r => r

end RawData

/-- `repliesListing && typeof repliesListing === "object" ?
repliesListing.data?.children : undefined` from the source. -/
def repliesChildren : RawRepliesField → RawSeq
  | .absent => .notArray
  | .obj c => c

/-- The mutable state threaded through `parseComments`: the shared
`state.count` counter and the `moreStubs` sink (pushed at the end). -/
structure ParseState : Type where
  count : Nat
  stubs : List MoreStub
deriving Repr, DecidableEq

/-- Auxiliary size bound used for the termination of `parseComments`. -/
theorem sizeOf_repliesChildren_le (r : RawRepliesField) :
    sizeOf (repliesChildren r) ≤ sizeOf r := by
  cases r <;> simp [repliesChildren]

/-- The `more`-placeholder handling of `parseComments`'s loop: record one
stub when the entry carries a non-empty child-id array and a non-empty
string `parent_id`, otherwise leave the state unchanged. -/
def pushStub (st : ParseState) (d : RawData) : ParseState :=
  match d.children with
  | some moreChildren =>
    if moreChildren.length > 0 ∧ (d.parentId).getD "" ≠ "" then
      { st with stubs := st.stubs ++ [⟨(d.parentId).getD "", moreChildren⟩] }
    else st
  | none => st

mutual
/-- `parseComments(children, depth, state, moreStubs)` from the source:
the guard at entry (`!Array.isArray(children) || depth > MAX_COMMENT_DEPTH
|| state.count >= MAX_COMMENTS`) returns an empty sequence, otherwise the
sibling loop `parseList` runs. -/
def parseComments (children : RawSeq) (depth : Nat) (st : ParseState) :
    List RedditCommentNode × ParseState :=
  match children with
  | .notArray => ([], st)
  | .arr items =>
    if depth > MAX_COMMENT_DEPTH ∨ st.count ≥ MAX_COMMENTS then ([], st)
    else parseList items depth st
termination_by sizeOf children
decreasing_by simp

/-- The `for (const child of children)` loop body of `parseComments`:
`break` when the count bound is hit, `continue` on stub collection, on
non-`t1` entries and on blank bodies, otherwise create a node (incrementing
the count first) and recurse into its replies listing at `depth + 1`. -/
def parseList (items : List RawChild) (depth : Nat) (st : ParseState) :
    List RedditCommentNode × ParseState :=
  match items with
  | [] => ([], st)
  | RawChild.mk kind dataOpt :: rest =>
    if st.count ≥ MAX_COMMENTS then ([], st)
    else
      match kind, dataOpt with
      | some "more", some d => parseList rest depth (pushStub st d)
      | some "t1", some d =>
        if isBlank ((d.body).getD "") then parseList rest depth st
        else
          let (reps, st2) :=
            parseComments (repliesChildren d.replies) (depth + 1)
              { st with count := st.count + 1 }
          let (restNodes, st3) := parseList rest depth st2
          (.mk ((d.id).getD freshId) ((d.author).getD "[deleted]")
              ((d.body).getD "") ((d.score).getD 0) ((d.createdUtc).getD 0)
              reps :: restNodes, st3)
      | _, _ => parseList rest depth st
termination_by sizeOf items
decreasing_by
  all_goals simp
  all_goals cases d
  all_goals first
    | omega
    | (rename_i r h
       have hh := sizeOf_repliesChildren_le r
       simp [RawData.replies] at *
       omega)
end

/-- Auxiliary size bound used for termination of tree recursions below. -/
theorem sizeOf_replies_lt (c : RedditCommentNode) :
    sizeOf c.replies < sizeOf c := by
  cases c
  simp [RedditCommentNode.replies]

/-- The identity test of `insertIntoTree`: the visited node's comment-tagged
(`t1_`) or post-tagged (`t3_`) identifier equals the parent reference. -/
def matchesRef (c : RedditCommentNode) (parentId : String) : Bool :=
  ("t1_" ++ c.id == parentId) || ("t3_" ++ c.id == parentId)

/-- `insertIntoTree(tree, parentId, nodes)` from the source. The source
mutates the matched node's `replies` in place and returns a boolean; here
the updated tree is returned alongside it. The source's
`if (comment.replies.length > 0)` guard before the recursive call is
omitted: on an empty `replies` list the recursion returns `(false, [])`,
which leaves the node unchanged exactly as skipping the call does. -/
def insertIntoTree (tree : List RedditCommentNode) (parentId : String)
    (nodes : List RedditCommentNode) : Bool × List RedditCommentNode :=
  match tree with
  | [] => (false, [])
  | c :: rest =>
    if matchesRef c parentId then
      (true, c.withReplies (c.replies ++ nodes) :: rest)
    else
      match insertIntoTree c.replies parentId nodes with
      | (true, reps2) => (true, c.withReplies reps2 :: rest)
      | (false, reps2) =>
        let (ok, rest2) := insertIntoTree rest parentId nodes
        (ok, c.withReplies reps2 :: rest2)
termination_by sizeOf tree
decreasing_by
  all_goals simp
  all_goals have h := sizeOf_replies_lt c
  all_goals omega

/-- Depth-first existence of a node matching the parent reference, in the
same pre-order as `insertIntoTree`'s search. -/
def anyMatch (tree : List RedditCommentNode) (parentId : String) : Bool :=
  match tree with
  | [] => false
  | c :: rest =>
    matchesRef c parentId || anyMatch c.replies parentId ||
      anyMatch rest parentId
termination_by sizeOf tree
decreasing_by
  all_goals simp
  all_goals have h := sizeOf_replies_lt c
  all_goals omega

/-- The node a path of sibling indices leads to, if any. -/
def nodeAt : List RedditCommentNode → List Nat → Option RedditCommentNode
  | _, [] => none
  | tree, i :: rest =>
    match tree.get? i with
    | none => none
    | some c =>
      match rest with
      | [] => some c
      | _ :: _ => nodeAt c.replies rest

/-- Replace the `i`-th element of a list, if it exists. -/
def modifyAt (f : List α) (i : Nat) (g : α → α) : List α :=
  match f, i with
  | [], _ => []
  | x :: xs, 0 => g x :: xs
  | x :: xs, n + 1 => x :: modifyAt xs n g

/-- Append `nodes` to the `replies` of the node a path leads to (the tree is
unchanged on an invalid path). -/
def appendAt (tree : List RedditCommentNode) (path : List Nat)
    (nodes : List RedditCommentNode) : List RedditCommentNode :=
  match path with
  | [] => tree
  | i :: rest =>
    match rest with
    | [] => modifyAt tree i (fun c => c.withReplies (c.replies ++ nodes))
    | _ :: _ =>
      modifyAt tree i (fun c => c.withReplies (appendAt c.replies rest nodes))

/-- The path to the first node matching the parent reference in
`insertIntoTree`'s depth-first search order (node before its subtree,
subtree before later siblings). -/
def firstMatchPath (tree : List RedditCommentNode) (parentId : String) :
    Option (List Nat) :=
  match tree with
  | [] => none
  | c :: rest =>
    if matchesRef c parentId then some [0]
    else
      match firstMatchPath c.replies parentId with
      | some π => some (0 :: π)
      | none =>
        match firstMatchPath rest parentId with
        | some [] => some []
        | some (i :: π) => some ((i + 1) :: π)
        | none => none
termination_by sizeOf tree
decreasing_by
  all_goals simp
  all_goals have h := sizeOf_replies_lt c
  all_goals omega

mutual
/-- Number of nodes in one comment subtree. -/
def sizeNode : RedditCommentNode → Nat
  | .mk _ _ _ _ _ replies => 1 + sizeForest replies

/-- Number of nodes in a forest of comment subtrees. -/
def sizeForest : List RedditCommentNode → Nat
  | [] => 0
  | n :: rest => sizeNode n + sizeForest rest
end

/-- `parentFullId.replace(/^t[0-9]_/, "")` from the source: strip a leading
type tag (`t` followed by one digit and `_`) if present. -/
def stripTag (s : String) : String :=
  match s.data with
  | 't' :: d :: '_' :: rest => if d.isDigit then String.mk rest else s
  | _ => s

/-- `Map.get`: the value stored under `k`, if any. -/
def mapGet (m : List (String × α)) (k : String) : Option α :=
  match m.find? (fun e => e.1 == k) with
  | some e => some e.2
  | none => none

/-- `Map.get(k) ?? d`. -/
def mapGetD (m : List (String × α)) (k : String) (d : α) : α :=
  (mapGet m k).getD d

/-- JS `Map.set`: replaces the value of an existing key in place (keeping
its insertion position) and appends a fresh key at the end. -/
def mapSet (m : List (String × α)) (k : String) (v : α) : List (String × α) :=
  if m.any (fun e => e.1 == k) then
    m.map (fun e => if e.1 == k then (k, v) else e)
  else m ++ [(k, v)]

/-- The per-comment fields stored in `buildTreeFromFlat`'s `nodeMap`
entries (everything except the mutable `replies` array). -/
structure NodeCore : Type where
  id : String
  author : String
  body : String
  score : Int
  createdUtc : Int
deriving Repr, DecidableEq

/-- Realize a `nodeMap` entry as a comment node with the given replies. -/
def NodeCore.toNode (c : NodeCore) (reps : List RedditCommentNode) :
    RedditCommentNode :=
  .mk c.id c.author c.body c.score c.createdUtc reps

/-- The first loop of `buildTreeFromFlat` (written as a recursion over the
`things` with the two maps as accumulators): filter to `t1` entries with
non-blank bodies and fill `nodeMap` (id ↦ node) and `parentMap`
(id ↦ unstripped parent reference). -/
def flatPass1Go (things : List RawChild)
    (nodeMap : List (String × NodeCore))
    (parentMap : List (String × String)) :
    List (String × NodeCore) × List (String × String) :=
  match things with
  | [] => (nodeMap, parentMap)
  | RawChild.mk kind dataOpt :: rest =>
    match kind, dataOpt with
    | some "t1", some d =>
      if isBlank ((d.body).getD "") then flatPass1Go rest nodeMap parentMap
      else
        flatPass1Go rest
          (mapSet nodeMap ((d.id).getD freshId)
            ⟨(d.id).getD freshId, (d.author).getD "[deleted]",
              (d.body).getD "", (d.score).getD 0, (d.createdUtc).getD 0⟩)
          (mapSet parentMap ((d.id).getD freshId) ((d.parentId).getD ""))
    | _, _ => flatPass1Go rest nodeMap parentMap

/-- The first loop of `buildTreeFromFlat`, started on empty maps. -/
def flatPass1 (things : List RawChild) :
    List (String × NodeCore) × List (String × String) :=
  flatPass1Go things [] []

@[simp]
theorem flatPass1Go_nil (nm : List (String × NodeCore))
    (pm : List (String × String)) : flatPass1Go [] nm pm = (nm, pm) := rfl

theorem flatPass1Go_blank (d : RawData) (rest : List RawChild)
    (nm : List (String × NodeCore)) (pm : List (String × String))
    (hb : isBlank ((d.body).getD "") = true) :
    flatPass1Go (RawChild.mk (some "t1") (some d) :: rest) nm pm =
      flatPass1Go rest nm pm := by
  rw [flatPass1Go.eq_def]
  simp [hb]

theorem flatPass1Go_t1 (d : RawData) (rest : List RawChild)
    (nm : List (String × NodeCore)) (pm : List (String × String))
    (hb : ¬isBlank ((d.body).getD "") = true) :
    flatPass1Go (RawChild.mk (some "t1") (some d) :: rest) nm pm =
      flatPass1Go rest
        (mapSet nm ((d.id).getD freshId)
          ⟨(d.id).getD freshId, (d.author).getD "[deleted]",
            (d.body).getD "", (d.score).getD 0, (d.createdUtc).getD 0⟩)
        (mapSet pm ((d.id).getD freshId) ((d.parentId).getD "")) := by
  rw [flatPass1Go.eq_def]
  simp [hb]

theorem flatPass1Go_other (kind : Option String) (dataOpt : Option RawData)
    (rest : List RawChild) (nm : List (String × NodeCore))
    (pm : List (String × String))
    (ht1 : ∀ d, kind = some "t1" → dataOpt = some d → False) :
    flatPass1Go (RawChild.mk kind dataOpt :: rest) nm pm =
      flatPass1Go rest nm pm := by
  rw [flatPass1Go.eq_def]
  split
  · rename_i heq
    exact absurd heq (by simp)
  · rename_i k2 d2 r2 heq
    injection heq with h1 h2
    injection h1 with hk hd
    subst hk
    subst hd
    subst h2
    split
    · rename_i x1 x2 d2
      exact (ht1 d2 rfl rfl).elim
    · rfl

/-- The second loop of `buildTreeFromFlat`: for every entry whose stripped
parent short id is present in `nodeMap`, push its id onto that parent's
reply list. The source pushes the child *object reference* onto
`parentNode.replies`; since `nodeMap` holds exactly one object per id, the
reference is faithfully modelled by the id and the resulting id-indexed
reply lists `km`. -/
def flatKidsGo (nodeMap : List (String × NodeCore))
    (entries : List (String × String))
    (km : List (String × List String)) : List (String × List String) :=
  match entries with
  | [] => km
  | e :: rest =>
    if (mapGet nodeMap (stripTag e.2)).isSome then
      if (mapGet nodeMap e.1).isSome then
        flatKidsGo nodeMap rest
          (mapSet km (stripTag e.2) (mapGetD km (stripTag e.2) [] ++ [e.1]))
      else flatKidsGo nodeMap rest km
    else flatKidsGo nodeMap rest km

/-- The second loop of `buildTreeFromFlat`, over all of `parentMap`. -/
def flatKids (nodeMap : List (String × NodeCore))
    (parentMap : List (String × String)) : List (String × List String) :=
  flatKidsGo nodeMap parentMap []

/-- The third loop of `buildTreeFromFlat`: entries whose stripped parent
short id is absent from `nodeMap` are grouped under their *unstripped*
parent reference as sub-forest roots. -/
def flatByParentGo (nodeMap : List (String × NodeCore))
    (entries : List (String × String))
    (bp : List (String × List String)) : List (String × List String) :=
  match entries with
  | [] => bp
  | e :: rest =>
    if (mapGet nodeMap (stripTag e.2)).isNone then
      if (mapGet nodeMap e.1).isSome then
        flatByParentGo nodeMap rest
          (mapSet bp e.2 (mapGetD bp e.2 [] ++ [e.1]))
      else flatByParentGo nodeMap rest bp
    else flatByParentGo nodeMap rest bp

/-- The third loop of `buildTreeFromFlat`, over all of `parentMap`. -/
def flatByParent (nodeMap : List (String × NodeCore))
    (parentMap : List (String × String)) : List (String × List String) :=
  flatByParentGo nodeMap parentMap []

/-- The result of `buildTreeFromFlat`, with object references represented
by ids: `nodes` is `nodeMap` (one object per id), `kids` the id-indexed
reply lists produced by the attachment loop, `byParent` the id-indexed
sub-forest grouping, `allIds` the key set of `nodeMap`. -/
structure FlatBuild : Type where
  nodes : List (String × NodeCore)
  kids : List (String × List String)
  byParent : List (String × List String)
  allIds : List String

/-- `buildTreeFromFlat(things)` from the source. -/
def buildTreeFromFlat (things : List RawChild) : FlatBuild :=
  let (nodeMap, parentMap) := flatPass1 things
  { nodes := nodeMap
    kids := flatKids nodeMap parentMap
    byParent := flatByParent nodeMap parentMap
    allIds := nodeMap.map (·.1) }

/-- Realize the object graph of a `FlatBuild` as a value tree rooted at
`id`. `fuel` only guards against cyclic parent references (a self-parented
entry), which the upstream never produces: with `fuel` larger than the
entry count any acyclic graph is realized completely. -/
def materialize (b : FlatBuild) : Nat → String → Option RedditCommentNode
  | 0, _ => none
  | fuel + 1, id =>
    match mapGet b.nodes id with
    | none => none
    | some core =>
      some (core.toNode ((mapGetD b.kids id []).filterMap (materialize b fuel)))

/-- The outcome of one `morechildren` batch request: a thrown fetch or JSON
parse (`netError`), a non-success HTTP status (`httpError`), or a parsed
body whose `json.data.things` is an array (`ok (some _)`) or not
(`ok none`). -/
inductive BatchResult : Type where
  | netError : BatchResult
  | httpError : BatchResult
  | ok (things : Option (List RawChild)) : BatchResult

/-- The raw entries a batch contributes: its `things` on success, nothing on
any failure. -/
def extractBatch : BatchResult → List RawChild
  | .ok (some things) => things
  | _ => []

/-- `fetchMoreChildren(postId, childIds)` from the source, with the network
abstracted into a `transport` oracle mapping each batch's id slice to its
outcome. The source's index loop `for (i = 0; i < len; i += 100)` over
`childIds.slice(i, i + 100)` is the recursion on `take`/`drop` below. -/
def fetchMoreChildren (childIds : List String)
    (transport : List String → BatchResult) : List RawChild :=
  match childIds with
  | [] => []
  | c :: cs =>
    extractBatch (transport ((c :: cs).take MORE_CHILDREN_BATCH)) ++
      fetchMoreChildren ((c :: cs).drop MORE_CHILDREN_BATCH) transport
termination_by childIds.length
decreasing_by
  all_goals simp [MORE_CHILDREN_BATCH]
  all_goals omega

/-- The consecutive batches of at most `MORE_CHILDREN_BATCH` ids, in order:
the specification-level view of the slicing loop. -/
def chunks : List α → List (List α)
  | [] => []
  | c :: cs =>
    (c :: cs).take MORE_CHILDREN_BATCH ::
      chunks ((c :: cs).drop MORE_CHILDREN_BATCH)
termination_by l => l.length
decreasing_by
  all_goals simp [MORE_CHILDREN_BATCH]
  all_goals omega

/-- One iteration of the `POST` handler's splice loop: try
`insertIntoTree`; on failure fall back to a top-level append exactly when
the parent reference is the post-tagged thread root. -/
def spliceOne (postId : String) (tree : List RedditCommentNode)
    (parentId : String) (nodes : List RedditCommentNode) :
    List RedditCommentNode :=
  let r := insertIntoTree tree parentId nodes
  if r.1 then r.2
  else if parentId == "t3_" ++ postId then tree ++ nodes
  else tree

/-- The whole splice loop over the `byParent` pairs, in map order. -/
def spliceAll (postId : String) (tree : List RedditCommentNode) :
    List (String × List RedditCommentNode) → List RedditCommentNode
  | [] => tree
  | pr :: rest => spliceAll postId (spliceOne postId tree pr.1 pr.2) rest

/-- The `byParent` mapping with its id-represented sub-forests realized as
node lists (the source's map already holds the node references). -/
def materializeByParent (b : FlatBuild) (fuel : Nat) :
    List (String × List RedditCommentNode) :=
  b.byParent.map (fun pr => (pr.1, pr.2.filterMap (materialize b fuel)))

/-- The comment-assembly part of the `POST` handler (lines 536–559 of the
source): nested pass, then — when stub ids exist and the post id is
non-empty — continuation resolution, flat build and splicing. `outcome` is
the result of `fetchMoreChildren` as observed at the `try`: `.error`
models a thrown exception, which the empty `catch` swallows. -/
def resolveAndSplice (children : RawSeq) (postId : String)
    (outcome : Except Unit (List RawChild)) : List RedditCommentNode :=
  let (comments, st) := parseComments children 0 ⟨0, []⟩
  let allMoreChildIds := (st.stubs.map (·.childIds)).flatten
  if 0 < allMoreChildIds.length ∧ postId ≠ "" then
    match outcome with
    | .error _ => comments
    | .ok moreThings =>
      if 0 < moreThings.length then
        let b := buildTreeFromFlat moreThings
        spliceAll postId comments (materializeByParent b (moreThings.length + 1))
      else comments
  else comments

/-! ## Basic size and shape lemmas -/

@[simp]
theorem sizeForest_nil : sizeForest [] = 0 := by
  simp [sizeForest]

@[simp]
theorem sizeNode_mk (i a b : String) (s cu : Int) (reps : List RedditCommentNode) :
    sizeNode (.mk i a b s cu reps) = 1 + sizeForest reps := by
  simp [sizeNode]

@[simp]
theorem sizeForest_cons (n : RedditCommentNode) (rest : List RedditCommentNode) :
    sizeForest (n :: rest) = sizeNode n + sizeForest rest := by
  simp [sizeForest]

theorem sizeForest_append (l l' : List RedditCommentNode) :
    sizeForest (l ++ l') = sizeForest l + sizeForest l' := by
  induction l with
  | nil => simp
  | cons n rest ih => simp [ih]; omega

@[simp]
theorem sizeNode_pos (n : RedditCommentNode) : 0 < sizeNode n := by
  cases n; simp


@[simp]
theorem pushStub_count (st : ParseState) (d : RawData) :
    (pushStub st d).count = st.count := by
  rw [pushStub]
  split
  · split <;> rfl
  · rfl

/-- Unfolding: `parseComments` on a non-array input. -/
@[simp]
theorem parseComments_notArray (depth : Nat) (st : ParseState) :
    parseComments .notArray depth st = ([], st) :=
  parseComments.eq_1 depth st

/-- Unfolding: `parseComments` on an array is the guard `if` around the
sibling loop. -/
theorem parseComments_arr (items : List RawChild) (depth : Nat)
    (st : ParseState) :
    parseComments (.arr items) depth st =
      if depth > MAX_COMMENT_DEPTH ∨ st.count ≥ MAX_COMMENTS then ([], st)
      else parseList items depth st := by
  rw [parseComments.eq_def]

/-- Unfolding: the loop on an empty sibling list. -/
@[simp]
theorem parseList_nil (depth : Nat) (st : ParseState) :
    parseList [] depth st = ([], st) := by
  rw [parseList.eq_def]

/-- Unfolding: the `break` once the count bound is reached. -/
theorem parseList_break (x : RawChild) (rest : List RawChild) (depth : Nat)
    (st : ParseState) (h : st.count ≥ MAX_COMMENTS) :
    parseList (x :: rest) depth st = ([], st) := by
  cases x with
  | mk kind dataOpt =>
    rw [parseList.eq_def]
    simp [h]

/-- Unfolding: a `more` placeholder records its stub and continues. -/
theorem parseList_more (d : RawData) (rest : List RawChild) (depth : Nat)
    (st : ParseState) (h : ¬st.count ≥ MAX_COMMENTS) :
    parseList (RawChild.mk (some "more") (some d) :: rest) depth st =
      parseList rest depth (pushStub st d) := by
  rw [parseList.eq_def]
  simp [h]

/-- Unfolding: a comment entry with blank body is skipped. -/
theorem parseList_blank (d : RawData) (rest : List RawChild) (depth : Nat)
    (st : ParseState) (h : ¬st.count ≥ MAX_COMMENTS)
    (hb : isBlank ((d.body).getD "")) :
    parseList (RawChild.mk (some "t1") (some d) :: rest) depth st =
      parseList rest depth st := by
  rw [parseList.eq_def]
  simp [h, hb]

/-- Unfolding: a valid comment entry creates a node, recursing into its
replies listing at `depth + 1` after bumping the count. -/
theorem parseList_t1 (d : RawData) (rest : List RawChild) (depth : Nat)
    (st : ParseState) (h : ¬st.count ≥ MAX_COMMENTS)
    (hb : ¬isBlank ((d.body).getD "")) :
    parseList (RawChild.mk (some "t1") (some d) :: rest) depth st =
      ((.mk ((d.id).getD freshId) ((d.author).getD "[deleted]")
          ((d.body).getD "") ((d.score).getD 0) ((d.createdUtc).getD 0)
          (parseComments (repliesChildren d.replies) (depth + 1)
            { st with count := st.count + 1 }).1 ::
        (parseList rest depth
          (parseComments (repliesChildren d.replies) (depth + 1)
            { st with count := st.count + 1 }).2).1),
        (parseList rest depth
          (parseComments (repliesChildren d.replies) (depth + 1)
            { st with count := st.count + 1 }).2).2) := by
  rw [parseList.eq_def]
  simp [h, hb]

/-- Unfolding: an entry that is neither a well-formed `more` placeholder
nor a well-formed comment entry is skipped. -/
theorem parseList_other (kind : Option String) (dataOpt : Option RawData)
    (rest : List RawChild) (depth : Nat) (st : ParseState)
    (h : ¬st.count ≥ MAX_COMMENTS)
    (hmore : ∀ d, kind = some "more" → dataOpt = some d → False)
    (ht1 : ∀ d, kind = some "t1" → dataOpt = some d → False) :
    parseList (RawChild.mk kind dataOpt :: rest) depth st =
      parseList rest depth st := by
  rw [parseList.eq_def]
  simp only [if_neg h]


theorem parseList_count_law (items : List RawChild) (depth : Nat)
    (st : ParseState) :
    ((parseList items depth st).2).count =
      st.count + sizeForest (parseList items depth st).1 := by
  induction items, depth, st using parseList.induct
  case motive1 children depth st =>
    exact ((parseComments children depth st).2).count =
      st.count + sizeForest (parseComments children depth st).1
  case case1 => simp
  case case2 =>
    rename_i depth st items h
    rw [parseComments_arr, if_pos h]
    simp
  case case3 =>
    rename_i depth st items h ih
    rw [parseComments_arr, if_neg h]
    exact ih
  case case4 => simp
  case case5 =>
    rename_i depth st kind dataOpt rest h
    rw [parseList_break _ _ _ _ h]
    simp
  case case6 =>
    rename_i depth st rest hq d ih
    rw [parseList_more _ _ _ _ hq]
    rw [pushStub_count] at ih
    exact ih
  case case7 =>
    rename_i depth st rest hq d hbl ih
    rw [parseList_blank _ _ _ _ hq hbl]
    exact ih
  case case8 =>
    rename_i depth st rest hq d hnb reps st2 hrec restN st3 hrest ihC ihL
    rw [parseList_t1 _ _ _ _ hq hnb]
    rw [hrec] at ihC ⊢
    rw [hrest] at ihL ⊢
    simp at ihC ihL ⊢
    omega
  case case9 =>
    rename_i depth st kind dataOpt rest hq hmore ht1 ih
    rw [parseList_other _ _ _ _ _ hq hmore ht1]
    exact ih

theorem parseComments_count_law (children : RawSeq) (depth : Nat)
    (st : ParseState) :
    ((parseComments children depth st).2).count =
      st.count + sizeForest (parseComments children depth st).1 := by
  cases children with
  | notArray => simp
  | arr items =>
    rw [parseComments_arr]
    split
    · simp
    · exact parseList_count_law items depth st


/-! ## Splicer: basic lemmas and the path-level specification -/

@[simp]
theorem withReplies_replies (c : RedditCommentNode) :
    c.withReplies c.replies = c := by
  cases c; rfl

@[simp]
theorem replies_withReplies (c : RedditCommentNode)
    (r : List RedditCommentNode) : (c.withReplies r).replies = r := by
  cases c; rfl

@[simp]
theorem id_withReplies (c : RedditCommentNode) (r : List RedditCommentNode) :
    (c.withReplies r).id = c.id := by
  cases c; rfl

@[simp]
theorem matchesRef_withReplies (c : RedditCommentNode)
    (r : List RedditCommentNode) (p : String) :
    matchesRef (c.withReplies r) p = matchesRef c p := by
  simp [matchesRef]

@[simp]
theorem anyMatch_nil (p : String) : anyMatch [] p = false := by
  rw [anyMatch.eq_def]

@[simp]
theorem anyMatch_cons (c : RedditCommentNode) (rest : List RedditCommentNode)
    (p : String) :
    anyMatch (c :: rest) p =
      (matchesRef c p || anyMatch c.replies p || anyMatch rest p) := by
  rw [anyMatch.eq_def]

@[simp]
theorem insertIntoTree_nil (p : String) (ns : List RedditCommentNode) :
    insertIntoTree [] p ns = (false, []) := by
  rw [insertIntoTree.eq_def]

theorem insertIntoTree_cons_match (c : RedditCommentNode)
    (rest ns : List RedditCommentNode) (p : String)
    (h : matchesRef c p = true) :
    insertIntoTree (c :: rest) p ns =
      (true, c.withReplies (c.replies ++ ns) :: rest) := by
  rw [insertIntoTree.eq_def]
  simp [h]

theorem insertIntoTree_cons_found (c : RedditCommentNode)
    (rest ns r2 : List RedditCommentNode) (p : String)
    (h : ¬matchesRef c p = true)
    (hin : insertIntoTree c.replies p ns = (true, r2)) :
    insertIntoTree (c :: rest) p ns = (true, c.withReplies r2 :: rest) := by
  rw [insertIntoTree.eq_def]
  simp [h, hin]

theorem insertIntoTree_cons_miss (c : RedditCommentNode)
    (rest ns r2 : List RedditCommentNode) (p : String)
    (h : ¬matchesRef c p = true)
    (hin : insertIntoTree c.replies p ns = (false, r2)) :
    insertIntoTree (c :: rest) p ns =
      ((insertIntoTree rest p ns).1,
        c.withReplies r2 :: (insertIntoTree rest p ns).2) := by
  rw [insertIntoTree.eq_def]
  simp [h, hin]

@[simp]
theorem firstMatchPath_nil (p : String) : firstMatchPath [] p = none := by
  rw [firstMatchPath.eq_def]

theorem firstMatchPath_cons_match (c : RedditCommentNode)
    (rest : List RedditCommentNode) (p : String)
    (h : matchesRef c p = true) :
    firstMatchPath (c :: rest) p = some [0] := by
  rw [firstMatchPath.eq_def]
  simp [h]

theorem firstMatchPath_cons_inner (c : RedditCommentNode)
    (rest : List RedditCommentNode) (p : String) (π : List Nat)
    (h : ¬matchesRef c p = true)
    (hin : firstMatchPath c.replies p = some π) :
    firstMatchPath (c :: rest) p = some (0 :: π) := by
  rw [firstMatchPath.eq_def]
  simp [h, hin]

theorem firstMatchPath_cons_outer (c : RedditCommentNode)
    (rest : List RedditCommentNode) (p : String)
    (h : ¬matchesRef c p = true)
    (hin : firstMatchPath c.replies p = none) :
    firstMatchPath (c :: rest) p =
      (match firstMatchPath rest p with
        | some [] => some []
        | some (i :: π) => some ((i + 1) :: π)
        | none => none) := by
  rw [firstMatchPath.eq_def]
  simp [h, hin]

/-- Paths produced by the search are never empty. -/
theorem firstMatchPath_ne_nil (tree : List RedditCommentNode) (p : String)
    (π : List Nat) (h : firstMatchPath tree p = some π) : π ≠ [] := by
  induction tree, p using firstMatchPath.induct generalizing π with
  | case1 p => simp at h
  | case2 p c rest hm =>
    rw [firstMatchPath_cons_match c rest p hm] at h
    injection h with h
    subst h
    simp
  | case3 p c rest hm π0 hin ih =>
    rw [firstMatchPath_cons_inner c rest p π0 hm hin] at h
    injection h with h
    subst h
    simp
  | case4 p c rest hm hin hrest ih1 ih2 =>
    exact absurd rfl (ih2 [] hrest)
  | case5 p c rest hm hin i π0 hrest ih1 ih2 =>
    rw [firstMatchPath_cons_outer c rest p hm hin, hrest] at h
    injection h with h
    subst h
    simp
  | case6 p c rest hm hin hrest ih1 ih2 =>
    rw [firstMatchPath_cons_outer c rest p hm hin, hrest] at h
    simp at h


@[simp]
theorem appendAt_nil_path (t ns : List RedditCommentNode) :
    appendAt t [] ns = t := rfl

theorem appendAt_single (t ns : List RedditCommentNode) (i : Nat) :
    appendAt t [i] ns =
      modifyAt t i (fun c => c.withReplies (c.replies ++ ns)) := rfl

theorem appendAt_cons_path (t ns : List RedditCommentNode) (i j : Nat)
    (rest : List Nat) :
    appendAt t (i :: j :: rest) ns =
      modifyAt t i (fun c => c.withReplies (appendAt c.replies (j :: rest) ns)) :=
  rfl

/-- Shifting the head index past an untouched first sibling. -/
theorem appendAt_shift (c : RedditCommentNode) (t ns : List RedditCommentNode)
    (i : Nat) (π : List Nat) :
    appendAt (c :: t) ((i + 1) :: π) ns = c :: appendAt t (i :: π) ns := by
  cases π <;> rfl

/-- Entering the replies of the first sibling. -/
theorem appendAt_enter (c : RedditCommentNode) (t ns : List RedditCommentNode)
    (π : List Nat) (h : π ≠ []) :
    appendAt (c :: t) (0 :: π) ns =
      c.withReplies (appendAt c.replies π ns) :: t := by
  cases π with
  | nil => exact absurd rfl h
  | cons j rest => rfl

/-- Appending at the node itself. -/
theorem appendAt_here (c : RedditCommentNode) (t ns : List RedditCommentNode) :
    appendAt (c :: t) [0] ns = c.withReplies (c.replies ++ ns) :: t := rfl

/-- The splicer, characterized by the path of the depth-first first match:
on no match it returns `false` with the tree unchanged; on a match it
returns `true` with `nodes` appended to the replies of the node at that
path and nothing else changed. -/
theorem insertIntoTree_eq_spec (tree : List RedditCommentNode) (p : String)
    (ns : List RedditCommentNode) :
    insertIntoTree tree p ns =
      (match firstMatchPath tree p with
        | none => (false, tree)
        | some π => (true, appendAt tree π ns)) := by
  induction tree, p, ns using insertIntoTree.induct with
  | case1 p ns => simp
  | case2 p ns c rest h =>
    rw [insertIntoTree_cons_match c rest ns p h,
      firstMatchPath_cons_match c rest p h]
    rfl
  | case3 p ns c rest h reps2 hin ih =>
    rw [hin] at ih
    cases hf : firstMatchPath c.replies p with
    | none => rw [hf] at ih; simp at ih
    | some π =>
      rw [hf] at ih
      simp only [Prod.mk.injEq, true_and] at ih
      subst ih
      rw [insertIntoTree_cons_found c rest ns _ p h hin,
        firstMatchPath_cons_inner c rest p π h hf]
      show _ = (true, appendAt (c :: rest) (0 :: π) ns)
      rw [appendAt_enter c rest ns π (firstMatchPath_ne_nil _ _ _ hf)]
  | case4 p ns c rest h reps2 hin ok rest2 hrest ih1 ih2 =>
    rw [hin] at ih1
    cases hf : firstMatchPath c.replies p with
    | some π => rw [hf] at ih1; simp at ih1
    | none =>
      rw [hf] at ih1
      simp only [Prod.mk.injEq, true_and] at ih1
      rw [insertIntoTree_cons_miss c rest ns reps2 p h hin, ih1,
        withReplies_replies, firstMatchPath_cons_outer c rest p h hf]
      cases hr : firstMatchPath rest p with
      | none =>
        rw [ih2, hr]
      | some σ =>
        cases σ with
        | nil => exact absurd hr (by intro hh; exact firstMatchPath_ne_nil _ _ _ hh rfl)
        | cons i π' =>
          rw [ih2, hr]
          show _ = (true, appendAt (c :: rest) ((i + 1) :: π') ns)
          rw [appendAt_shift]


/-- The search succeeds exactly when some node matches. -/
theorem firstMatchPath_isSome_eq_anyMatch (tree : List RedditCommentNode)
    (p : String) : (firstMatchPath tree p).isSome = anyMatch tree p := by
  induction tree, p using firstMatchPath.induct with
  | case1 p => simp
  | case2 p c rest h =>
    rw [firstMatchPath_cons_match _ _ _ h]
    simp [h]
  | case3 p c rest h π hin ih =>
    rw [firstMatchPath_cons_inner _ _ _ _ h hin]
    rw [hin] at ih
    simp [h, ← ih]
  | case4 p c rest h hin hrest ih1 ih2 =>
    exact absurd rfl (firstMatchPath_ne_nil _ _ _ hrest)
  | case5 p c rest h hin i π hrest ih1 ih2 =>
    rw [firstMatchPath_cons_outer _ _ _ h hin, hrest]
    rw [hin] at ih1
    rw [hrest] at ih2
    simp [h, ← ih1, ← ih2]
  | case6 p c rest h hin hrest ih1 ih2 =>
    rw [firstMatchPath_cons_outer _ _ _ h hin, hrest]
    rw [hin] at ih1
    rw [hrest] at ih2
    simp [h, ← ih1, ← ih2]

/-- Membership of a node anywhere in a forest (at top level or nested in
some node's replies). -/
inductive ForestMem : RedditCommentNode → List RedditCommentNode → Prop where
  | here (c : RedditCommentNode) (rest : List RedditCommentNode) :
      ForestMem c (c :: rest)
  | inside {m : RedditCommentNode} (c : RedditCommentNode)
      (rest : List RedditCommentNode) :
      ForestMem m c.replies → ForestMem m (c :: rest)
  | tail {m : RedditCommentNode} (c : RedditCommentNode)
      (rest : List RedditCommentNode) :
      ForestMem m rest → ForestMem m (c :: rest)

@[simp]
theorem ForestMem_nil (m : RedditCommentNode) : ¬ForestMem m [] := by
  intro h
  cases h

theorem ForestMem_cons_iff (m c : RedditCommentNode)
    (rest : List RedditCommentNode) :
    ForestMem m (c :: rest) ↔
      m = c ∨ ForestMem m c.replies ∨ ForestMem m rest := by
  constructor
  · intro h
    cases h with
    | here => exact Or.inl rfl
    | inside _ _ h => exact Or.inr (Or.inl h)
    | tail _ _ h => exact Or.inr (Or.inr h)
  · intro h
    rcases h with rfl | h | h
    · exact ForestMem.here m rest
    · exact ForestMem.inside c rest h
    · exact ForestMem.tail c rest h

/-- The boolean depth-first search finds a match exactly when a matching
node is somewhere in the forest. -/
theorem anyMatch_iff_exists (tree : List RedditCommentNode) (p : String) :
    anyMatch tree p = true ↔
      ∃ m, ForestMem m tree ∧ matchesRef m p = true := by
  induction tree, p using anyMatch.induct with
  | case1 p => simp
  | case2 p c rest ih1 ih2 =>
    rw [anyMatch_cons]
    simp only [Bool.or_eq_true, ih1, ih2]
    constructor
    · rintro ((hm | ⟨m, hmem, hm⟩) | ⟨m, hmem, hm⟩)
      · exact ⟨c, ForestMem.here c rest, hm⟩
      · exact ⟨m, ForestMem.inside c rest hmem, hm⟩
      · exact ⟨m, ForestMem.tail c rest hmem, hm⟩
    · rintro ⟨m, hmem, hm⟩
      rw [ForestMem_cons_iff] at hmem
      rcases hmem with rfl | hmem | hmem
      · exact Or.inl (Or.inl hm)
      · exact Or.inl (Or.inr ⟨m, hmem, hm⟩)
      · exact Or.inr ⟨m, hmem, hm⟩

@[simp]
theorem nodeAt_nil_path (t : List RedditCommentNode) : nodeAt t [] = none :=
  rfl

theorem nodeAt_single (t : List RedditCommentNode) (i : Nat) :
    nodeAt t [i] = t.get? i := by
  cases hg : t.get? i
  · show (match t.get? i with | none => none | some c => some c) = _
    rw [hg]
  · show (match t.get? i with | none => none | some c => some c) = _
    rw [hg]

theorem nodeAt_pair (t : List RedditCommentNode) (i j : Nat) (ρ : List Nat) :
    nodeAt t (i :: j :: ρ) =
      (match t.get? i with
        | none => none
        | some c => nodeAt c.replies (j :: ρ)) := by
  rfl

theorem nodeAt_shift (c : RedditCommentNode) (t : List RedditCommentNode)
    (i : Nat) (σ : List Nat) :
    nodeAt (c :: t) ((i + 1) :: σ) = nodeAt t (i :: σ) := by
  cases σ with
  | nil => rw [nodeAt_single, nodeAt_single]; rfl
  | cons j ρ => rw [nodeAt_pair, nodeAt_pair]; rfl

/-- `modifyAt` at the modified index. -/
theorem get_modifyAt_eq (t : List α) (i : Nat) (g : α → α) :
    (modifyAt t i g).get? i = (t.get? i).map g := by
  induction t generalizing i with
  | nil => simp [modifyAt]
  | cons x xs ih =>
    cases i with
    | zero => simp [modifyAt]
    | succ n => simpa [modifyAt] using ih n

/-- `modifyAt` away from the modified index. -/
theorem get_modifyAt_ne (t : List α) (i j : Nat) (g : α → α) (h : j ≠ i) :
    (modifyAt t i g).get? j = t.get? j := by
  induction t generalizing i j with
  | nil => simp [modifyAt]
  | cons x xs ih =>
    cases i with
    | zero =>
      cases j with
      | zero => exact absurd rfl h
      | succ m => simp [modifyAt]
    | succ n =>
      cases j with
      | zero => simp [modifyAt]
      | succ m => simpa [modifyAt] using ih n m (fun hh => h (by rw [hh]))

/-- Looking up the path that was appended at yields the node with the
spliced nodes at the end of its replies. -/
theorem nodeAt_appendAt (π : List Nat) (t ns : List RedditCommentNode)
    (m : RedditCommentNode) (h : nodeAt t π = some m) :
    nodeAt (appendAt t π ns) π = some (m.withReplies (m.replies ++ ns)) := by
  induction π generalizing t with
  | nil => simp at h
  | cons i σ ih =>
    cases σ with
    | nil =>
      rw [nodeAt_single] at h
      rw [appendAt_single, nodeAt_single, get_modifyAt_eq, h]
      rfl
    | cons j ρ =>
      rw [nodeAt_pair] at h
      cases hg : t.get? i with
      | none => rw [hg] at h; simp at h
      | some c =>
        rw [hg] at h
        rw [appendAt_cons_path, nodeAt_pair, get_modifyAt_eq, hg]
        show nodeAt ((c.withReplies (appendAt c.replies (j :: ρ) ns)).replies)
            (j :: ρ) = _
        rw [replies_withReplies]
        exact ih c.replies h


/-- A path lookup in the left part of an appended forest. -/
theorem nodeAt_append_left (l ext : List RedditCommentNode) (k : Nat)
    (σ : List Nat) (m : RedditCommentNode)
    (h : nodeAt l (k :: σ) = some m) :
    nodeAt (l ++ ext) (k :: σ) = some m := by
  cases σ with
  | nil =>
    rw [nodeAt_single] at h
    rw [nodeAt_single, List.get?_append (List.get?_eq_some.mp h).1]
    exact h
  | cons j ρ =>
    rw [nodeAt_pair] at h
    cases hg : l.get? k with
    | none => rw [hg] at h; simp at h
    | some c =>
      rw [hg] at h
      rw [nodeAt_pair, List.get?_append (List.get?_eq_some.mp hg).1, hg]
      exact h

/-- A path lookup that enters at a different index than the modified one. -/
theorem nodeAt_modifyAt_ne (t : List RedditCommentNode) (i j : Nat)
    (g : RedditCommentNode → RedditCommentNode) (σ : List Nat) (h : j ≠ i) :
    nodeAt (modifyAt t i g) (j :: σ) = nodeAt t (j :: σ) := by
  cases σ with
  | nil => rw [nodeAt_single, nodeAt_single, get_modifyAt_ne t i j g h]
  | cons k ρ => rw [nodeAt_pair, nodeAt_pair, get_modifyAt_ne t i j g h]

/-- Frame property of `appendAt`: every valid path that is not a prefix of
(or equal to) the append path still leads to the same node. -/
theorem nodeAt_appendAt_off (σ : List Nat) (π : List Nat)
    (t ns : List RedditCommentNode) (m : RedditCommentNode)
    (h : nodeAt t σ = some m) (hnp : ∀ ρ, σ ++ ρ ≠ π) :
    nodeAt (appendAt t π ns) σ = some m := by
  induction σ generalizing π t with
  | nil => simp at h
  | cons j σ' ih =>
    cases π with
    | nil => rw [appendAt_nil_path]; exact h
    | cons i π' =>
      by_cases hji : j = i
      · subst hji
        cases π' with
        | nil =>
          cases σ' with
          | nil => exact absurd rfl (hnp [])
          | cons k σ2 =>
            rw [nodeAt_pair] at h
            cases hg : t.get? j with
            | none => rw [hg] at h; simp at h
            | some c =>
              rw [hg] at h
              rw [appendAt_single, nodeAt_pair, get_modifyAt_eq, hg]
              show nodeAt ((c.withReplies (c.replies ++ ns)).replies)
                  (k :: σ2) = _
              rw [replies_withReplies]
              exact nodeAt_append_left c.replies ns k σ2 m h
        | cons q π2 =>
          cases σ' with
          | nil => exact absurd rfl (hnp (q :: π2))
          | cons k σ2 =>
            rw [nodeAt_pair] at h
            cases hg : t.get? j with
            | none => rw [hg] at h; simp at h
            | some c =>
              rw [hg] at h
              rw [appendAt_cons_path, nodeAt_pair, get_modifyAt_eq, hg]
              show nodeAt ((c.withReplies
                  (appendAt c.replies (q :: π2) ns)).replies) (k :: σ2) = _
              rw [replies_withReplies]
              refine ih (q :: π2) c.replies h ?_
              intro ρ hρ
              exact hnp ρ (by rw [List.cons_append, hρ])
      · cases π' with
        | nil =>
          rw [appendAt_single]
          rw [nodeAt_modifyAt_ne t i j _ σ' hji]
          exact h
        | cons q π2 =>
          rw [appendAt_cons_path]
          rw [nodeAt_modifyAt_ne t i j _ σ' hji]
          exact h


/-- Entering the first sibling's replies on a deeper path. -/
theorem nodeAt_enter (c : RedditCommentNode) (t : List RedditCommentNode)
    (σ : List Nat) (h : σ ≠ []) :
    nodeAt (c :: t) (0 :: σ) = nodeAt c.replies σ := by
  cases σ with
  | nil => exact absurd rfl h
  | cons j ρ => rw [nodeAt_pair]; rfl

/-- The first-match path leads to a node matching the parent reference. -/
theorem firstMatchPath_nodeAt (tree : List RedditCommentNode) (p : String)
    (π : List Nat) (h : firstMatchPath tree p = some π) :
    ∃ m, nodeAt tree π = some m ∧ matchesRef m p = true := by
  induction tree, p using firstMatchPath.induct generalizing π with
  | case1 p => simp at h
  | case2 p c rest hm =>
    rw [firstMatchPath_cons_match _ _ _ hm] at h
    injection h with h
    subst h
    exact ⟨c, by rw [nodeAt_single]; rfl, hm⟩
  | case3 p c rest hm π0 hin ih =>
    rw [firstMatchPath_cons_inner _ _ _ _ hm hin] at h
    injection h with h
    subst h
    obtain ⟨m, hml, hmr⟩ := ih π0 hin
    exact ⟨m, by
      rw [nodeAt_enter c rest π0 (firstMatchPath_ne_nil _ _ _ hin)]
      exact hml, hmr⟩
  | case4 p c rest hm hin hrest ih1 ih2 =>
    exact absurd rfl (firstMatchPath_ne_nil _ _ _ hrest)
  | case5 p c rest hm hin i π0 hrest ih1 ih2 =>
    rw [firstMatchPath_cons_outer _ _ _ hm hin, hrest] at h
    injection h with h
    subst h
    obtain ⟨m, hml, hmr⟩ := ih2 (i :: π0) hrest
    exact ⟨m, by rw [nodeAt_shift]; exact hml, hmr⟩
  | case6 p c rest hm hin hrest ih1 ih2 =>
    rw [firstMatchPath_cons_outer _ _ _ hm hin, hrest] at h
    simp at h

/-- Appending at the first-match path does not move the first match: the
search in the updated tree finds the same path. -/
theorem firstMatchPath_appendAt (tree : List RedditCommentNode) (p : String)
    (π : List Nat) (ns : List RedditCommentNode)
    (h : firstMatchPath tree p = some π) :
    firstMatchPath (appendAt tree π ns) p = some π := by
  induction tree, p using firstMatchPath.induct generalizing π with
  | case1 p => simp at h
  | case2 p c rest hm =>
    rw [firstMatchPath_cons_match _ _ _ hm] at h
    injection h with h
    subst h
    rw [appendAt_here]
    exact firstMatchPath_cons_match _ _ _ (by rw [matchesRef_withReplies]; exact hm)
  | case3 p c rest hm π0 hin ih =>
    rw [firstMatchPath_cons_inner _ _ _ _ hm hin] at h
    injection h with h
    subst h
    rw [appendAt_enter c rest ns π0 (firstMatchPath_ne_nil _ _ _ hin)]
    have hstep := ih π0 hin
    refine (firstMatchPath_cons_inner _ _ _ _ ?_ ?_)
    · rw [matchesRef_withReplies]; exact hm
    · rw [replies_withReplies]
      exact hstep
  | case4 p c rest hm hin hrest ih1 ih2 =>
    exact absurd rfl (firstMatchPath_ne_nil _ _ _ hrest)
  | case5 p c rest hm hin i π0 hrest ih1 ih2 =>
    rw [firstMatchPath_cons_outer _ _ _ hm hin, hrest] at h
    injection h with h
    subst h
    rw [appendAt_shift]
    rw [firstMatchPath_cons_outer _ _ _ hm hin, ih2 (i :: π0) hrest]
  | case6 p c rest hm hin hrest ih1 ih2 =>
    rw [firstMatchPath_cons_outer _ _ _ hm hin, hrest] at h
    simp at h

/-- The splicer's boolean result is exactly the existence of a match. -/
theorem insertIntoTree_fst (tree : List RedditCommentNode) (p : String)
    (ns : List RedditCommentNode) :
    (insertIntoTree tree p ns).1 = anyMatch tree p := by
  rw [insertIntoTree_eq_spec]
  rw [← firstMatchPath_isSome_eq_anyMatch]
  cases firstMatchPath tree p <;> rfl

/-- With no match anywhere, the splicer reports failure and leaves the
tree untouched. -/
theorem insertIntoTree_no_match (tree : List RedditCommentNode) (p : String)
    (ns : List RedditCommentNode) (h : anyMatch tree p = false) :
    insertIntoTree tree p ns = (false, tree) := by
  rw [insertIntoTree_eq_spec]
  rw [← firstMatchPath_isSome_eq_anyMatch] at h
  cases hf : firstMatchPath tree p with
  | none => rfl
  | some π => rw [hf] at h; simp at h


/-! ## Claim theorems: the tree splicer (C2, C9, C10) -/

/-- An ancestor-or-equal relation on paths: `σ` extended by some suffix
reaches `π`. -/
def PathLe (σ π : List Nat) : Prop := ∃ ρ, σ ++ ρ = π

/-- C2: the splicer searches depth-first comparing the `t1_`/`t3_` tagged
identifiers; on the first match it appends the nodes at the end of that
node's replies and returns `true`; with no match anywhere it returns
`false` and the tree is unchanged; the orchestrator's fallback then appends
the nodes at top level exactly when the parent reference is the post-tagged
thread root, and otherwise leaves the tree unchanged so the nodes appear
nowhere. -/
theorem splice_and_fallback_spec (tree : List RedditCommentNode) (p : String)
    (ns : List RedditCommentNode) (postId : String) :
    ((insertIntoTree tree p ns).1 = true ↔
      ∃ m, ForestMem m tree ∧ matchesRef m p = true) ∧
    ((insertIntoTree tree p ns).1 = true →
      ∃ π m, firstMatchPath tree p = some π ∧ nodeAt tree π = some m ∧
        matchesRef m p = true ∧
        (insertIntoTree tree p ns).2 = appendAt tree π ns ∧
        nodeAt (insertIntoTree tree p ns).2 π =
          some (m.withReplies (m.replies ++ ns))) ∧
    (anyMatch tree p = false →
      insertIntoTree tree p ns = (false, tree) ∧
      spliceOne postId tree p ns =
        (if p == "t3_" ++ postId then tree ++ ns else tree) ∧
      (p ≠ "t3_" ++ postId → spliceOne postId tree p ns = tree ∧
        ∀ x, ¬ForestMem x tree → ¬ForestMem x (spliceOne postId tree p ns))) := by
  refine ⟨?_, ?_, ?_⟩
  · rw [insertIntoTree_fst]
    exact anyMatch_iff_exists tree p
  · intro h
    rw [insertIntoTree_eq_spec] at h ⊢
    cases hf : firstMatchPath tree p with
    | none => rw [hf] at h; simp at h
    | some π =>
      obtain ⟨m, hml, hmr⟩ := firstMatchPath_nodeAt tree p π hf
      refine ⟨π, m, rfl, hml, hmr, rfl, ?_⟩
      show nodeAt (appendAt tree π ns) π = _
      exact nodeAt_appendAt π tree ns m hml
  · intro h
    have hins := insertIntoTree_no_match tree p ns h
    refine ⟨hins, ?_, ?_⟩
    · rw [spliceOne, hins]
      rfl
    · intro hne
      have heq : spliceOne postId tree p ns = tree := by
        rw [spliceOne, hins]
        show (if false = true then tree
          else if (p == "t3_" ++ postId) = true then tree ++ ns else tree) =
            tree
        rw [if_neg (by simp), if_neg (by simp [hne])]
      exact ⟨heq, fun x hx => by rw [heq]; exact hx⟩

/-- C9: splicing is not idempotent — when a match exists, a second call
with the same arguments succeeds again on the same node and appends the
nodes a second time, so its replies end in two copies of `ns` (duplicated
children, no dedup by id). -/
theorem splice_not_idempotent (tree : List RedditCommentNode) (p : String)
    (ns : List RedditCommentNode)
    (h : (insertIntoTree tree p ns).1 = true) :
    ∃ π m, firstMatchPath tree p = some π ∧ nodeAt tree π = some m ∧
      (insertIntoTree (insertIntoTree tree p ns).2 p ns).1 = true ∧
      nodeAt (insertIntoTree (insertIntoTree tree p ns).2 p ns).2 π =
        some (m.withReplies (m.replies ++ ns ++ ns)) := by
  rw [insertIntoTree_eq_spec] at h
  cases hf : firstMatchPath tree p with
  | none => rw [hf] at h; simp at h
  | some π =>
    obtain ⟨m, hml, hmr⟩ := firstMatchPath_nodeAt tree p π hf
    have h2 : firstMatchPath (appendAt tree π ns) p = some π :=
      firstMatchPath_appendAt tree p π ns hf
    have hfirst : (insertIntoTree tree p ns).2 = appendAt tree π ns := by
      rw [insertIntoTree_eq_spec, hf]
    refine ⟨π, m, rfl, hml, ?_, ?_⟩
    · rw [hfirst, insertIntoTree_eq_spec, h2]
    · rw [hfirst, insertIntoTree_eq_spec, h2]
      show nodeAt (appendAt (appendAt tree π ns) π ns) π = _
      have hmid := nodeAt_appendAt π tree ns m hml
      have := nodeAt_appendAt π (appendAt tree π ns) ns _ hmid
      rw [this]
      rw [replies_withReplies]
      cases m
      rfl

/-- C10: frame property — on failure the tree is completely unchanged; on
success the result is exactly an append at the first-match path: the node
there gets `ns` appended at the end of its replies (other fields intact),
and every node at a path that is not an ancestor-or-equal of the splice
path is untouched. -/
theorem splice_frame (tree : List RedditCommentNode) (p : String)
    (ns : List RedditCommentNode) :
    ((insertIntoTree tree p ns).1 = false →
      (insertIntoTree tree p ns).2 = tree) ∧
    ((insertIntoTree tree p ns).1 = true →
      ∃ π m, firstMatchPath tree p = some π ∧ nodeAt tree π = some m ∧
        (insertIntoTree tree p ns).2 = appendAt tree π ns ∧
        nodeAt (insertIntoTree tree p ns).2 π =
          some (m.withReplies (m.replies ++ ns)) ∧
        (∀ σ m', nodeAt tree σ = some m' → ¬PathLe σ π →
          nodeAt (insertIntoTree tree p ns).2 σ = some m')) := by
  constructor
  · intro h
    rw [insertIntoTree_eq_spec] at h ⊢
    cases hf : firstMatchPath tree p with
    | none => rfl
    | some π => rw [hf] at h; exact Bool.noConfusion h
  · intro h
    rw [insertIntoTree_eq_spec] at h
    cases hf : firstMatchPath tree p with
    | none => rw [hf] at h; simp at h
    | some π =>
      obtain ⟨m, hml, hmr⟩ := firstMatchPath_nodeAt tree p π hf
      have hres : (insertIntoTree tree p ns).2 = appendAt tree π ns := by
        rw [insertIntoTree_eq_spec, hf]
      refine ⟨π, m, rfl, hml, hres, ?_, ?_⟩
      · rw [hres]
        exact nodeAt_appendAt π tree ns m hml
      · intro σ m' hσ hnp
        rw [hres]
        exact nodeAt_appendAt_off σ π tree ns m' hσ
          (fun ρ hρ => hnp ⟨ρ, hρ⟩)


/-! ## Continuation resolver: batching (C8) and degradation (C4) -/

@[simp]
theorem fetchMoreChildren_nil (tr : List String → BatchResult) :
    fetchMoreChildren [] tr = [] := by
  rw [fetchMoreChildren.eq_def]

theorem fetchMoreChildren_cons (c : String) (cs : List String)
    (tr : List String → BatchResult) :
    fetchMoreChildren (c :: cs) tr =
      extractBatch (tr ((c :: cs).take MORE_CHILDREN_BATCH)) ++
        fetchMoreChildren ((c :: cs).drop MORE_CHILDREN_BATCH) tr := by
  rw [fetchMoreChildren.eq_def]

@[simp]
theorem chunks_nil : chunks ([] : List α) = [] := by
  rw [chunks.eq_def]

theorem chunks_cons (c : α) (cs : List α) :
    chunks (c :: cs) =
      (c :: cs).take MORE_CHILDREN_BATCH ::
        chunks ((c :: cs).drop MORE_CHILDREN_BATCH) := by
  rw [chunks.eq_def]

/-- The resolver is the per-chunk extraction, concatenated in chunk order. -/
theorem fetchMoreChildren_eq_chunks (ids : List String)
    (tr : List String → BatchResult) :
    fetchMoreChildren ids tr =
      ((chunks ids).map (fun b => extractBatch (tr b))).flatten := by
  induction ids using chunks.induct with
  | case1 => simp
  | case2 c cs ih =>
    rw [fetchMoreChildren_cons, chunks_cons]
    rw [List.map_cons, List.flatten_cons, ih]

/-- Chunking partitions the list: the chunks concatenate back to it. -/
theorem chunks_flatten (ids : List α) : (chunks ids).flatten = ids := by
  induction ids using chunks.induct with
  | case1 => simp
  | case2 c cs ih =>
    rw [chunks_cons, List.flatten_cons, ih, List.take_append_drop]

/-- Every chunk is non-empty and at most the batch size. -/
theorem chunks_bounds (ids : List α) (b : List α) (hb : b ∈ chunks ids) :
    b.length ≤ MORE_CHILDREN_BATCH ∧ b ≠ [] := by
  induction ids using chunks.induct with
  | case1 => simp at hb
  | case2 c cs ih =>
    rw [chunks_cons] at hb
    rcases List.mem_cons.mp hb with rfl | hb
    · exact ⟨List.length_take_le _ _, by simp [MORE_CHILDREN_BATCH]⟩
    · exact ih hb

/-- If every batch fails, the resolver returns the empty sequence. -/
theorem fetchMoreChildren_all_fail (ids : List String)
    (tr : List String → BatchResult)
    (h : ∀ batch, extractBatch (tr batch) = []) :
    fetchMoreChildren ids tr = [] := by
  rw [fetchMoreChildren_eq_chunks]
  induction chunks ids with
  | nil => simp
  | cons b bs ih => rw [List.map_cons, List.flatten_cons, h b, ih, List.nil_append]


/-- Unfolding: the orchestrator on a thrown resolver (the empty `catch`
swallows the exception and keeps the nested-pass tree). -/
theorem resolveAndSplice_error (children : RawSeq) (postId : String)
    (e : Unit) (comments : List RedditCommentNode) (st : ParseState)
    (hp : parseComments children 0 ⟨0, []⟩ = (comments, st)) :
    resolveAndSplice children postId (.error e) = comments := by
  unfold resolveAndSplice
  rw [hp]
  split
  rename_i x restNodes st3 heq
  injection heq with h1 h2
  subst h1
  subst h2
  show (if 0 < ((List.map (fun x => x.childIds) st.stubs).flatten).length ∧
      postId ≠ "" then comments else comments) = comments
  split <;> rfl

/-- Unfolding: the orchestrator on a resolver that returned `moreThings`. -/
theorem resolveAndSplice_ok (children : RawSeq) (postId : String)
    (moreThings : List RawChild) (comments : List RedditCommentNode)
    (st : ParseState)
    (hp : parseComments children 0 ⟨0, []⟩ = (comments, st)) :
    resolveAndSplice children postId (.ok moreThings) =
      (if 0 < ((st.stubs.map (fun s => s.childIds)).flatten).length ∧
          postId ≠ "" then
        if 0 < moreThings.length then
          spliceAll postId comments
            (materializeByParent (buildTreeFromFlat moreThings)
              (moreThings.length + 1))
        else comments
      else comments) := by
  unfold resolveAndSplice
  rw [hp]


/-- C8: the continuation resolver partitions the id list into consecutive
batches of at most `MORE_CHILDREN_BATCH` ids (the chunks concatenate back
to the input), issues one request per batch via the transport, skips any
failing batch while continuing with the rest, returns the concatenation of
the successfully extracted entries in batch order, and returns the empty
sequence rather than an error when every batch fails. -/
theorem fetch_batches_spec (ids : List String)
    (tr : List String → BatchResult) :
    fetchMoreChildren ids tr =
      ((chunks ids).map (fun b => extractBatch (tr b))).flatten ∧
    (chunks ids).flatten = ids ∧
    (∀ b ∈ chunks ids, b.length ≤ MORE_CHILDREN_BATCH ∧ b ≠ []) ∧
    ((∀ batch, extractBatch (tr batch) = []) →
      fetchMoreChildren ids tr = []) :=
  ⟨fetchMoreChildren_eq_chunks ids tr, chunks_flatten ids,
    fun b hb => chunks_bounds ids b hb,
    fetchMoreChildren_all_fail ids tr⟩

/-- C4: if the whole continuation-resolution phase fails — the resolver
throws (swallowed by the empty `catch`), or every batch fails so the
resolver returns nothing — the returned comments equal exactly the
nested-pass tree; nothing already parsed is discarded and no exception
escapes (failure is an ordinary value here). -/
theorem resolver_failure_degrades (children : RawSeq) (postId : String) :
    (∀ e, resolveAndSplice children postId (.error e) =
      (parseComments children 0 ⟨0, []⟩).1) ∧
    (∀ tr : List String → BatchResult,
      (∀ batch, extractBatch (tr batch) = []) →
      resolveAndSplice children postId
        (.ok (fetchMoreChildren
          ((((parseComments children 0 ⟨0, []⟩).2).stubs.map
            (fun s => s.childIds)).flatten) tr)) =
      (parseComments children 0 ⟨0, []⟩).1) := by
  constructor
  · intro e
    exact resolveAndSplice_error children postId e _ _ Prod.mk.eta.symm
  · intro tr h
    rw [fetchMoreChildren_all_fail _ tr h]
    rw [resolveAndSplice_ok children postId [] _ _ Prod.mk.eta.symm]
    simp


/-! ## Depth bound of the nested pass (C5) -/

mutual
/-- `nodeHeightLe c k`: the subtree rooted at `c` fits within `k` nesting
levels (so `c` itself consumes one level). -/
def nodeHeightLe : RedditCommentNode → Nat → Bool
  | _, 0 => false
  | .mk _ _ _ _ _ reps, k + 1 => forestHeightLe reps k

/-- `forestHeightLe f k`: every tree of the forest fits within `k` levels. -/
def forestHeightLe : List RedditCommentNode → Nat → Bool
  | [], _ => true
  | c :: rest, k => nodeHeightLe c k && forestHeightLe rest k
end

@[simp]
theorem forestHeightLe_nil (k : Nat) : forestHeightLe [] k = true := by
  rw [forestHeightLe.eq_def]

@[simp]
theorem forestHeightLe_cons (c : RedditCommentNode)
    (rest : List RedditCommentNode) (k : Nat) :
    forestHeightLe (c :: rest) k =
      (nodeHeightLe c k && forestHeightLe rest k) := by
  rw [forestHeightLe.eq_def]

@[simp]
theorem nodeHeightLe_succ (i a b : String) (s cu : Int)
    (reps : List RedditCommentNode) (k : Nat) :
    nodeHeightLe (.mk i a b s cu reps) (k + 1) = forestHeightLe reps k := by
  rw [nodeHeightLe.eq_def]

/-- Every node the sibling loop produces at depth `d ≤ 20` fits within
`21 - d` levels. -/
theorem parseList_heightLe (items : List RawChild) (depth : Nat)
    (st : ParseState) :
    depth ≤ MAX_COMMENT_DEPTH →
      forestHeightLe (parseList items depth st).1
        (MAX_COMMENT_DEPTH + 1 - depth) = true := by
  induction items, depth, st using parseList.induct
  case motive1 children depth st =>
    exact forestHeightLe (parseComments children depth st).1
      (MAX_COMMENT_DEPTH + 1 - depth) = true
  case case1 => simp
  case case2 =>
    rename_i depth st items h
    rw [parseComments_arr, if_pos h]
    simp
  case case3 =>
    rename_i depth st items h ih
    rw [parseComments_arr, if_neg h]
    rw [not_or] at h
    exact ih (by omega)
  case case4 => intro hd; simp
  case case5 =>
    rename_i depth st kind dataOpt rest h
    intro hd
    rw [parseList_break _ _ _ _ h]
    simp
  case case6 =>
    rename_i depth st rest hq d ih
    intro hd
    rw [parseList_more _ _ _ _ hq]
    exact ih hd
  case case7 =>
    rename_i depth st rest hq d hbl ih
    intro hd
    rw [parseList_blank _ _ _ _ hq hbl]
    exact ih hd
  case case8 =>
    rename_i depth st rest hq d hnb reps st2 hrec restN st3 hrest ihC ihL
    intro hd
    rw [parseList_t1 _ _ _ _ hq hnb]
    rw [hrec] at ihC
    rw [hrest] at ihL
    simp only []
    rw [forestHeightLe_cons]
    have hstep : MAX_COMMENT_DEPTH + 1 - depth =
        (MAX_COMMENT_DEPTH + 1 - (depth + 1)) + 1 := by
      simp [MAX_COMMENT_DEPTH] at hd ⊢
      omega
    rw [hstep, nodeHeightLe_succ]
    rw [hrec, hrest]
    simp only [← hstep]
    exact by rw [ihC, ihL (by omega)]; rfl
  case case9 =>
    rename_i depth st kind dataOpt rest hq hmore ht1 ih
    intro hd
    rw [parseList_other _ _ _ _ _ hq hmore ht1]
    exact ih hd

/-- Every node of the nested pass sits at nesting depth at most
`MAX_COMMENT_DEPTH` below a top-level root. -/
theorem parseComments_heightLe (children : RawSeq) (st : ParseState) :
    forestHeightLe (parseComments children 0 st).1
      (MAX_COMMENT_DEPTH + 1) = true := by
  cases children with
  | notArray => simp
  | arr items =>
    rw [parseComments_arr]
    split
    · simp
    · simpa using parseList_heightLe items 0 st (by simp)


/-- C5: the parser returns an empty sequence immediately on a non-sequence
input, on `depth` exceeding the maximum, or with the running count already
at the maximum; every node the nested pass produces sits at nesting depth
at most `MAX_COMMENT_DEPTH` below a top-level root; and splicing succeeds
purely on the identifier match, with no depth re-check at the attachment
point. -/
theorem nested_depth_bound (children : RawSeq) (items : List RawChild)
    (depth : Nat) (st : ParseState) (tree : List RedditCommentNode)
    (p : String) (ns : List RedditCommentNode) :
    parseComments .notArray depth st = ([], st) ∧
    (depth > MAX_COMMENT_DEPTH →
      parseComments (.arr items) depth st = ([], st)) ∧
    (st.count ≥ MAX_COMMENTS →
      parseComments (.arr items) depth st = ([], st)) ∧
    forestHeightLe (parseComments children 0 st).1
      (MAX_COMMENT_DEPTH + 1) = true ∧
    (insertIntoTree tree p ns).1 = anyMatch tree p := by
  refine ⟨by simp, ?_, ?_, parseComments_heightLe children st,
    insertIntoTree_fst tree p ns⟩
  · intro h
    rw [parseComments_arr, if_pos (Or.inl h)]
  · intro h
    rw [parseComments_arr, if_pos (Or.inr h)]

/-- C7: the shared running count grows by exactly one per node created (it
ends at its start plus the number of nodes produced), a comment entry with
blank body is skipped without incrementing anything, and the moment the
count has reached the maximum the loop breaks — the remaining siblings are
dropped entirely, state untouched. -/
theorem nested_count_discipline (items rest : List RawChild) (x : RawChild)
    (depth : Nat) (st : ParseState) (d : RawData) :
    ((parseList items depth st).2).count =
      st.count + sizeForest (parseList items depth st).1 ∧
    (¬st.count ≥ MAX_COMMENTS → isBlank ((d.body).getD "") = true →
      parseList (RawChild.mk (some "t1") (some d) :: rest) depth st =
        parseList rest depth st) ∧
    (st.count ≥ MAX_COMMENTS → parseList (x :: rest) depth st = ([], st)) := by
  refine ⟨parseList_count_law items depth st, ?_, ?_⟩
  · intro h hb
    exact parseList_blank d rest depth st h hb
  · intro h
    exact parseList_break x rest depth st h


/-! ## Discard invariant: no blank bodies anywhere (C6) -/

mutual
/-- Every node of the subtree has a non-blank body. -/
def nodeBodiesOk : RedditCommentNode → Bool
  | .mk _ _ b _ _ reps => !isBlank b && forestBodiesOk reps

/-- Every node of the forest has a non-blank body. -/
def forestBodiesOk : List RedditCommentNode → Bool
  | [] => true
  | c :: rest => nodeBodiesOk c && forestBodiesOk rest
end

@[simp]
theorem forestBodiesOk_nil : forestBodiesOk [] = true := by
  rw [forestBodiesOk.eq_def]

@[simp]
theorem forestBodiesOk_cons (c : RedditCommentNode)
    (rest : List RedditCommentNode) :
    forestBodiesOk (c :: rest) = (nodeBodiesOk c && forestBodiesOk rest) := by
  rw [forestBodiesOk.eq_def]

@[simp]
theorem nodeBodiesOk_mk (i a b : String) (s cu : Int)
    (reps : List RedditCommentNode) :
    nodeBodiesOk (.mk i a b s cu reps) = (!isBlank b && forestBodiesOk reps) := by
  rw [nodeBodiesOk.eq_def]

theorem forestBodiesOk_append (l l' : List RedditCommentNode)
    (hl : forestBodiesOk l = true) (hl' : forestBodiesOk l' = true) :
    forestBodiesOk (l ++ l') = true := by
  induction l with
  | nil => simpa using hl'
  | cons c rest ih =>
    simp only [List.cons_append, forestBodiesOk_cons, Bool.and_eq_true] at hl ⊢
    exact ⟨hl.1, ih hl.2⟩

/-- The sibling loop only creates nodes with non-blank bodies. -/
theorem parseList_bodiesOk (items : List RawChild) (depth : Nat)
    (st : ParseState) :
    forestBodiesOk (parseList items depth st).1 = true := by
  induction items, depth, st using parseList.induct
  case motive1 children depth st =>
    exact forestBodiesOk (parseComments children depth st).1 = true
  case case1 => simp
  case case2 =>
    rename_i depth st items h
    rw [parseComments_arr, if_pos h]
    simp
  case case3 =>
    rename_i depth st items h ih
    rw [parseComments_arr, if_neg h]
    exact ih
  case case4 => simp
  case case5 =>
    rename_i depth st kind dataOpt rest h
    rw [parseList_break _ _ _ _ h]
    simp
  case case6 =>
    rename_i depth st rest hq d ih
    rw [parseList_more _ _ _ _ hq]
    exact ih
  case case7 =>
    rename_i depth st rest hq d hbl ih
    rw [parseList_blank _ _ _ _ hq hbl]
    exact ih
  case case8 =>
    rename_i depth st rest hq d hnb reps st2 hrec restN st3 hrest ihC ihL
    rw [parseList_t1 _ _ _ _ hq hnb]
    simp only [hrec] at ihC
    simp only [hrest] at ihL
    simp only [hrec, hrest, forestBodiesOk_cons, nodeBodiesOk_mk,
      Bool.and_eq_true]
    exact ⟨⟨by simp [hnb], ihC⟩, ihL⟩
  case case9 =>
    rename_i depth st kind dataOpt rest hq hmore ht1 ih
    rw [parseList_other _ _ _ _ _ hq hmore ht1]
    exact ih

/-- The nested pass only creates nodes with non-blank bodies. -/
theorem parseComments_bodiesOk (children : RawSeq) (depth : Nat)
    (st : ParseState) :
    forestBodiesOk (parseComments children depth st).1 = true := by
  cases children with
  | notArray => simp
  | arr items =>
    rw [parseComments_arr]
    split
    · simp
    · exact parseList_bodiesOk items depth st

/-- `modifyAt` preserves the body invariant when the modification does. -/
theorem forestBodiesOk_modifyAt (t : List RedditCommentNode) (i : Nat)
    (g : RedditCommentNode → RedditCommentNode)
    (hg : ∀ c, nodeBodiesOk c = true → nodeBodiesOk (g c) = true)
    (ht : forestBodiesOk t = true) :
    forestBodiesOk (modifyAt t i g) = true := by
  induction t generalizing i with
  | nil => simp [modifyAt]
  | cons c rest ih =>
    simp only [forestBodiesOk_cons, Bool.and_eq_true] at ht
    cases i with
    | zero =>
      simp only [modifyAt, forestBodiesOk_cons, Bool.and_eq_true]
      exact ⟨hg c ht.1, ht.2⟩
    | succ n =>
      simp only [modifyAt, forestBodiesOk_cons, Bool.and_eq_true]
      exact ⟨ht.1, ih n ht.2⟩

/-- `appendAt` preserves the body invariant. -/
theorem forestBodiesOk_appendAt (π : List Nat) (t ns : List RedditCommentNode)
    (ht : forestBodiesOk t = true) (hns : forestBodiesOk ns = true) :
    forestBodiesOk (appendAt t π ns) = true := by
  induction π generalizing t with
  | nil => simpa using ht
  | cons i σ ih =>
    cases σ with
    | nil =>
      rw [appendAt_single]
      refine forestBodiesOk_modifyAt t i _ ?_ ht
      intro c hc
      cases c with
      | mk ci ca cb cs ccu creps =>
        simp only [RedditCommentNode.withReplies, RedditCommentNode.replies,
          nodeBodiesOk_mk, Bool.and_eq_true] at hc ⊢
        exact ⟨hc.1, forestBodiesOk_append _ _ hc.2 hns⟩
    | cons j ρ =>
      rw [appendAt_cons_path]
      refine forestBodiesOk_modifyAt t i _ ?_ ht
      intro c hc
      cases c with
      | mk ci ca cb cs ccu creps =>
        simp only [RedditCommentNode.withReplies, RedditCommentNode.replies,
          nodeBodiesOk_mk, Bool.and_eq_true] at hc ⊢
        exact ⟨hc.1, ih creps hc.2⟩

/-- The splicer preserves the body invariant. -/
theorem insertIntoTree_bodiesOk (tree : List RedditCommentNode) (p : String)
    (ns : List RedditCommentNode) (ht : forestBodiesOk tree = true)
    (hns : forestBodiesOk ns = true) :
    forestBodiesOk (insertIntoTree tree p ns).2 = true := by
  rw [insertIntoTree_eq_spec]
  cases firstMatchPath tree p with
  | none => exact ht
  | some π => exact forestBodiesOk_appendAt π tree ns ht hns

/-- One splice-loop step preserves the body invariant. -/
theorem spliceOne_bodiesOk (postId : String) (tree : List RedditCommentNode)
    (p : String) (ns : List RedditCommentNode)
    (ht : forestBodiesOk tree = true) (hns : forestBodiesOk ns = true) :
    forestBodiesOk (spliceOne postId tree p ns) = true := by
  rw [spliceOne]
  split
  · exact insertIntoTree_bodiesOk tree p ns ht hns
  · split
    · exact forestBodiesOk_append tree ns ht hns
    · exact ht

/-- The whole splice loop preserves the body invariant. -/
theorem spliceAll_bodiesOk (postId : String) (tree : List RedditCommentNode)
    (pairs : List (String × List RedditCommentNode))
    (ht : forestBodiesOk tree = true)
    (hp : ∀ pr ∈ pairs, forestBodiesOk pr.2 = true) :
    forestBodiesOk (spliceAll postId tree pairs) = true := by
  induction pairs generalizing tree with
  | nil => simpa [spliceAll] using ht
  | cons pr rest ih =>
    rw [spliceAll]
    exact ih _ (spliceOne_bodiesOk postId tree pr.1 pr.2 ht
        (hp pr (List.mem_cons_self pr rest)))
      (fun q hq => hp q (List.mem_cons_of_mem pr hq))


/-- `mapSet` preserves a property that all entries and the new entry have. -/
theorem mapSet_all {α : Type} (P : String × α → Prop)
    (m : List (String × α)) (k : String) (v : α)
    (hm : ∀ e ∈ m, P e) (hv : P (k, v)) : ∀ e ∈ mapSet m k v, P e := by
  intro e he
  rw [mapSet] at he
  split at he
  · rcases List.mem_map.mp he with ⟨e0, he0, heq⟩
    by_cases hk : (e0.1 == k) = true
    · rw [if_pos hk] at heq
      rw [← heq]
      exact hv
    · rw [if_neg hk] at heq
      rw [← heq]
      exact hm e0 he0
  · rcases List.mem_append.mp he with he | he
    · exact hm e he
    · simp only [List.mem_singleton] at he
      rw [he]
      exact hv

/-- A `mapGet` hit comes from an entry of the map with the looked-up key. -/
theorem mapGet_mem {α : Type} (m : List (String × α)) (k : String) (v : α)
    (h : mapGet m k = some v) : ∃ e, e ∈ m ∧ e.2 = v ∧ e.1 = k := by
  rw [mapGet] at h
  cases hf : m.find? (fun e => e.1 == k) with
  | none => rw [hf] at h; simp at h
  | some e =>
    rw [hf] at h
    injection h with h
    refine ⟨e, List.mem_of_find?_eq_some hf, h, ?_⟩
    have := List.find?_some hf
    simpa using this

/-- All `nodeMap` entries built by the first flat loop have non-blank
bodies. -/
theorem flatPass1Go_nodes_bodiesOk (things : List RawChild)
    (nm : List (String × NodeCore)) (pm : List (String × String))
    (h : ∀ e ∈ nm, ¬isBlank e.2.body = true) :
    ∀ e ∈ (flatPass1Go things nm pm).1, ¬isBlank e.2.body = true := by
  induction things, nm, pm using flatPass1Go.induct with
  | case1 nm pm => exact h
  | case2 nm pm d rest hb ih =>
    rw [flatPass1Go_blank _ _ _ _ hb]
    exact ih h
  | case3 nm pm d rest hb ih =>
    rw [flatPass1Go_t1 _ _ _ _ hb]
    refine ih (mapSet_all _ nm _ _ h ?_)
    simpa using hb
  | case4 nm pm kind dataOpt rest ht1 ih =>
    rw [flatPass1Go_other _ _ _ _ _ ht1]
    exact ih h

/-- All `nodeMap` entries of `buildTreeFromFlat` have non-blank bodies. -/
theorem buildTreeFromFlat_nodes_bodiesOk (things : List RawChild) :
    ∀ e ∈ (buildTreeFromFlat things).nodes, ¬isBlank e.2.body = true := by
  rw [buildTreeFromFlat]
  cases hp : flatPass1 things with
  | mk nm pm =>
    rw [flatPass1] at hp
    intro e he
    refine flatPass1Go_nodes_bodiesOk things [] [] (by simp) e ?_
    rw [hp]
    exact he

/-- A forest is body-clean when every member tree is. -/
theorem forestBodiesOk_of_all (l : List RedditCommentNode)
    (h : ∀ n ∈ l, nodeBodiesOk n = true) : forestBodiesOk l = true := by
  induction l with
  | nil => simp
  | cons c rest ih =>
    simp only [forestBodiesOk_cons, Bool.and_eq_true]
    exact ⟨h c (List.mem_cons_self c rest),
      ih (fun n hn => h n (List.mem_cons_of_mem c hn))⟩

/-- Materialized flat nodes are body-clean. -/
theorem materialize_bodiesOk (b : FlatBuild)
    (hb : ∀ e ∈ b.nodes, ¬isBlank e.2.body = true) :
    ∀ fuel id n, materialize b fuel id = some n → nodeBodiesOk n = true := by
  intro fuel
  induction fuel with
  | zero => intro id n h; simp [materialize] at h
  | succ f ih =>
    intro id n h
    rw [materialize] at h
    cases hg : mapGet b.nodes id with
    | none => rw [hg] at h; simp at h
    | some core =>
      rw [hg] at h
      injection h with h
      rw [← h, NodeCore.toNode]
      obtain ⟨e, hem, he2, he1⟩ := mapGet_mem b.nodes id core hg
      simp only [nodeBodiesOk_mk, Bool.and_eq_true]
      constructor
      · have := hb e hem
        rw [he2] at this
        simpa using this
      · refine forestBodiesOk_of_all _ ?_
        intro n hn
        rcases List.mem_filterMap.mp hn with ⟨kid, _, hkid⟩
        exact ih kid n hkid

/-- Every sub-forest handed to the splice loop is body-clean. -/
theorem materializeByParent_bodiesOk (b : FlatBuild) (fuel : Nat)
    (hb : ∀ e ∈ b.nodes, ¬isBlank e.2.body = true) :
    ∀ pr ∈ materializeByParent b fuel, forestBodiesOk pr.2 = true := by
  intro pr hpr
  rw [materializeByParent] at hpr
  rcases List.mem_map.mp hpr with ⟨pr0, _, heq⟩
  rw [← heq]
  refine forestBodiesOk_of_all _ ?_
  intro n hn
  rcases List.mem_filterMap.mp hn with ⟨kid, _, hkid⟩
  exact materialize_bodiesOk b hb fuel kid n hkid

/-- C6: no `CommentNode` anywhere in the final output has an empty or
whitespace-only body — both the nested pass and the flat builder discard
such entries before node creation, and splicing only moves clean nodes, so
no `replies` sequence ever contains a blank-body node. -/
theorem no_blank_bodies (children : RawSeq) (postId : String)
    (outcome : Except Unit (List RawChild)) :
    forestBodiesOk (resolveAndSplice children postId outcome) = true := by
  cases outcome with
  | error e =>
    rw [resolveAndSplice_error children postId e _ _ Prod.mk.eta.symm]
    exact parseComments_bodiesOk children 0 ⟨0, []⟩
  | ok mt =>
    rw [resolveAndSplice_ok children postId mt _ _ Prod.mk.eta.symm]
    split
    · split
      · exact spliceAll_bodiesOk postId _ _
          (parseComments_bodiesOk children 0 ⟨0, []⟩)
          (materializeByParent_bodiesOk _ _
            (buildTreeFromFlat_nodes_bodiesOk mt))
      · exact parseComments_bodiesOk children 0 ⟨0, []⟩
    · exact parseComments_bodiesOk children 0 ⟨0, []⟩


/-! ## The global count bound (C1): nested-pass bound and counterexample -/

/-- The loop never pushes the counter past the maximum. -/
theorem parseList_count_le (items : List RawChild) (depth : Nat)
    (st : ParseState) :
    st.count ≤ MAX_COMMENTS →
      ((parseList items depth st).2).count ≤ MAX_COMMENTS := by
  induction items, depth, st using parseList.induct
  case motive1 children depth st =>
    exact st.count ≤ MAX_COMMENTS →
      ((parseComments children depth st).2).count ≤ MAX_COMMENTS
  case case1 =>
    intro h
    simpa using h
  case case2 =>
    rename_i depth st items hg
    intro h
    rw [parseComments_arr, if_pos hg]
    exact h
  case case3 =>
    rename_i depth st items hg ih
    intro h
    rw [parseComments_arr, if_neg hg]
    exact ih h
  case case4 =>
    intro h
    simpa using h
  case case5 =>
    rename_i depth st kind dataOpt rest hq
    intro h
    rw [parseList_break _ _ _ _ hq]
    exact h
  case case6 =>
    rename_i depth st rest hq d ih
    intro h
    rw [parseList_more _ _ _ _ hq]
    exact ih (by simpa using h)
  case case7 =>
    rename_i depth st rest hq d hbl ih
    intro h
    rw [parseList_blank _ _ _ _ hq hbl]
    exact ih h
  case case8 =>
    rename_i depth st rest hq d hnb reps st2 hrec restN st3 hrest ihC ihL
    intro h
    rw [parseList_t1 _ _ _ _ hq hnb]
    simp only [hrec] at ihC
    simp only [hrest] at ihL
    simp only [hrec, hrest]
    exact ihL (ihC (by simp [MAX_COMMENTS] at hq ⊢; omega))
  case case9 =>
    rename_i depth st kind dataOpt rest hq hmore ht1 ih
    intro h
    rw [parseList_other _ _ _ _ _ hq hmore ht1]
    exact ih h

/-- The size of a node is one plus the size of its replies. -/
theorem sizeNode_eq (c : RedditCommentNode) :
    sizeNode c = 1 + sizeForest c.replies := by
  cases c
  simp [RedditCommentNode.replies]

/-- The size of a node after replacing its replies. -/
theorem sizeNode_withReplies (c : RedditCommentNode)
    (r : List RedditCommentNode) :
    sizeNode (c.withReplies r) = 1 + sizeForest r := by
  cases c
  simp [RedditCommentNode.withReplies]

/-- Size accounting for `modifyAt` at a valid index. -/
theorem sizeForest_modifyAt (t : List RedditCommentNode) (i : Nat)
    (g : RedditCommentNode → RedditCommentNode) (c : RedditCommentNode)
    (hg : t.get? i = some c) :
    sizeForest (modifyAt t i g) + sizeNode c = sizeForest t + sizeNode (g c) := by
  induction t generalizing i with
  | nil => simp at hg
  | cons x xs ih =>
    cases i with
    | zero =>
      rw [List.get?_cons_zero] at hg
      injection hg with hg
      subst hg
      simp [modifyAt]
      omega
    | succ n =>
      rw [List.get?_cons_succ] at hg
      have := ih n hg
      simp [modifyAt]
      omega

/-- Appending a sub-forest at a valid path adds exactly its size. -/
theorem sizeForest_appendAt (π : List Nat) (t ns : List RedditCommentNode)
    (m : RedditCommentNode) (h : nodeAt t π = some m) :
    sizeForest (appendAt t π ns) = sizeForest t + sizeForest ns := by
  induction π generalizing t with
  | nil => simp at h
  | cons i σ ih =>
    cases σ with
    | nil =>
      rw [nodeAt_single] at h
      rw [appendAt_single]
      have hsz := sizeForest_modifyAt t i
        (fun c => c.withReplies (c.replies ++ ns)) _ h
      have hm := sizeNode_eq m
      simp only [sizeNode_withReplies, sizeForest_append] at hsz
      omega
    | cons j ρ =>
      rw [nodeAt_pair] at h
      cases hg : t.get? i with
      | none => rw [hg] at h; simp at h
      | some c =>
        rw [hg] at h
        rw [appendAt_cons_path]
        have hsz := sizeForest_modifyAt t i
          (fun c => c.withReplies (appendAt c.replies (j :: ρ) ns)) c hg
        have hin := ih c.replies h
        have hc := sizeNode_eq c
        simp only [sizeNode_withReplies] at hsz
        omega

/-- A successful splice grows the tree by exactly the sub-forest's size
(no counter is consulted). -/
theorem insertIntoTree_size (tree : List RedditCommentNode) (p : String)
    (ns : List RedditCommentNode)
    (h : (insertIntoTree tree p ns).1 = true) :
    sizeForest (insertIntoTree tree p ns).2 = sizeForest tree + sizeForest ns := by
  rw [insertIntoTree_eq_spec] at h ⊢
  cases hf : firstMatchPath tree p with
  | none => rw [hf] at h; exact Bool.noConfusion h
  | some π =>
    obtain ⟨m, hml, _⟩ := firstMatchPath_nodeAt tree p π hf
    show sizeForest (appendAt tree π ns) = _
    exact sizeForest_appendAt π tree ns m hml


/-- The nested pass as a whole never pushes the counter past the maximum. -/
theorem parseComments_count_le (children : RawSeq) (depth : Nat)
    (st : ParseState) (h : st.count ≤ MAX_COMMENTS) :
    ((parseComments children depth st).2).count ≤ MAX_COMMENTS := by
  cases children with
  | notArray => simpa using h
  | arr items =>
    rw [parseComments_arr]
    split
    · exact h
    · exact parseList_count_le items depth st h

/-- C1 (amended): only the nested pass respects the 2000-node bound — its
counter never exceeds the maximum, so it produces at most
`MAX_COMMENTS - st.count` nodes; a successful splice, by contrast, grows
the tree by the full sub-forest size without consulting any counter. -/
theorem count_bound_nested_pass_only (children : RawSeq) (depth : Nat)
    (st : ParseState) (tree ns : List RedditCommentNode) (p : String) :
    (st.count ≤ MAX_COMMENTS →
      ((parseComments children depth st).2).count ≤ MAX_COMMENTS) ∧
    (st.count ≤ MAX_COMMENTS →
      sizeForest (parseComments children depth st).1 ≤
        MAX_COMMENTS - st.count) ∧
    ((insertIntoTree tree p ns).1 = true →
      sizeForest (insertIntoTree tree p ns).2 =
        sizeForest tree + sizeForest ns) := by
  refine ⟨fun h => parseComments_count_le children depth st h, fun h => ?_,
    fun h => insertIntoTree_size tree p ns h⟩
  have hlaw := parseComments_count_law children depth st
  have hle := parseComments_count_le children depth st h
  omega

/-- The data record of the counterexample's comment entry. -/
def cxData : RawData :=
  .mk (some "a") (some "u") (some "x") (some 1) (some 2) none none .absent

/-- The comment entry of the count-bound counterexample. -/
def cxEntry : RawChild := .mk (some "t1") (some cxData)

/-- The node `cxEntry` parses to. -/
def cxNode : RedditCommentNode := .mk "a" "u" "x" 1 2 []

/-- The `more` placeholder of the counterexample, pointing at the thread
root. -/
def cxMoreEntry : RawChild :=
  .mk (some "more")
    (some (.mk none none none none none (some ["zz"]) (some "t3_p") .absent))

/-- The nested listing of the counterexample: one continuation stub
followed by exactly `MAX_COMMENTS` valid comments. -/
def cxChildren : RawSeq :=
  .arr (cxMoreEntry :: List.replicate MAX_COMMENTS cxEntry)

/-- The single flat entry the continuation fetch returns, parented at the
thread root. -/
def cxFlatThing : RawChild :=
  .mk (some "t1")
    (some (.mk (some "z") (some "uz") (some "Z") (some 1) (some 2)
      none (some "t3_p") .absent))

/-- The node `cxFlatThing` materializes to. -/
def cxZNode : RedditCommentNode := .mk "z" "uz" "Z" 1 2 []

/-- Parsing `n` copies of `cxEntry` yields `n` copies of `cxNode` and adds
`n` to the counter, as long as the bound is not hit. -/
theorem cx_parseList_replicate (n : Nat) (st : ParseState)
    (h : st.count + n ≤ MAX_COMMENTS) :
    parseList (List.replicate n cxEntry) 0 st =
      (List.replicate n cxNode, ⟨st.count + n, st.stubs⟩) := by
  induction n generalizing st with
  | zero => simp
  | succ k ih =>
    rw [List.replicate_succ]
    show parseList (RawChild.mk (some "t1") (some cxData) ::
      List.replicate k cxEntry) 0 st = _
    rw [parseList_t1 _ _ _ _ (by omega) (by decide)]
    rw [show repliesChildren cxData.replies = RawSeq.notArray from rfl,
      parseComments_notArray]
    rw [show ({ st with count := st.count + 1 } : ParseState) =
      ⟨st.count + 1, st.stubs⟩ from rfl]
    rw [ih ⟨st.count + 1, st.stubs⟩ (by simp only []; omega)]
    refine Prod.ext ?_ ?_
    · show cxNode :: List.replicate k cxNode = List.replicate (k + 1) cxNode
      rw [List.replicate_succ]
    · show (⟨st.count + 1 + k, st.stubs⟩ : ParseState) =
        ⟨st.count + (k + 1), st.stubs⟩
      congr 1
      omega

/-- The nested pass of the counterexample: exactly `MAX_COMMENTS` nodes and
one collected stub. -/
theorem cx_parse :
    parseComments cxChildren 0 ⟨0, []⟩ =
      (List.replicate MAX_COMMENTS cxNode,
        ⟨MAX_COMMENTS, [⟨"t3_p", ["zz"]⟩]⟩) := by
  rw [cxChildren, parseComments_arr, if_neg (by decide)]
  rw [cxMoreEntry, parseList_more _ _ _ _ (by decide)]
  have hps : pushStub ⟨0, []⟩
      (.mk none none none none none (some ["zz"]) (some "t3_p") .absent) =
      ⟨0, [⟨"t3_p", ["zz"]⟩]⟩ := rfl
  rw [hps, cx_parseList_replicate MAX_COMMENTS _ (by decide)]
  rfl

/-- No replicated comment node matches the root reference. -/
theorem cx_anyMatch_replicate (n : Nat) :
    anyMatch (List.replicate n cxNode) "t3_p" = false := by
  induction n with
  | zero => simp
  | succ k ih =>
    rw [List.replicate_succ, anyMatch_cons, ih]
    rw [show matchesRef cxNode "t3_p" = false by decide]
    rw [show cxNode.replies = [] by rfl, anyMatch_nil]
    rfl

@[simp]
theorem sizeForest_replicate_cxNode (n : Nat) :
    sizeForest (List.replicate n cxNode) = n := by
  induction n with
  | zero => simp
  | succ k ih =>
    rw [List.replicate_succ, sizeForest_cons, ih,
      show sizeNode cxNode = 1 by simp [cxNode]]
    omega

/-- C1 is false on the code: with a nested listing of exactly
`MAX_COMMENTS` comments plus one continuation stub at the thread root, and
one flat entry arriving for that stub, the final tree holds
`MAX_COMMENTS + 1` nodes — the spliced node is added although the counter
is already exhausted. -/
theorem count_bound_counterexample :
    MAX_COMMENTS <
      sizeForest (resolveAndSplice cxChildren "p" (.ok [cxFlatThing])) := by
  rw [resolveAndSplice_ok cxChildren "p" [cxFlatThing] _ _ cx_parse]
  rw [if_pos (by decide), if_pos (by decide)]
  have hmb : materializeByParent (buildTreeFromFlat [cxFlatThing])
      ([cxFlatThing].length + 1) = [("t3_p", [cxZNode])] := rfl
  rw [hmb, spliceAll, spliceAll]
  have hno := cx_anyMatch_replicate MAX_COMMENTS
  have hins := insertIntoTree_no_match _ _ [cxZNode] hno
  rw [spliceOne, hins]
  rw [show (((false, List.replicate MAX_COMMENTS cxNode)).1 : Bool) = false
    from rfl]
  rw [if_neg (by simp), if_pos (by decide)]
  rw [sizeForest_append, sizeForest_replicate_cxNode]
  decide


/-! ## The flat-forest builder (C3) -/

/-- Spec-level view: does a flat raw entry survive the builder's filter
(`t1`-tagged, has data, non-blank body)? -/
def survives (t : RawChild) : Bool :=
  match t.kind, t.data with
  | some "t1", some d => !isBlank ((d.body).getD "")
  | _, _ => false

/-- Spec-level view: the (short) id of a flat raw entry. -/
def entryId (t : RawChild) : String :=
  match t.data with
  | some d => (d.id).getD freshId
  | none => freshId

/-- Spec-level view: the unstripped parent reference of a flat raw entry. -/
def entryParent (t : RawChild) : String :=
  match t.data with
  | some d => (d.parentId).getD ""
  | none => ""

/-- Spec-level view: the node fields a flat raw entry is built into. -/
def entryCore (t : RawChild) : NodeCore :=
  match t.data with
  | some d =>
    ⟨(d.id).getD freshId, (d.author).getD "[deleted]", (d.body).getD "",
      (d.score).getD 0, (d.createdUtc).getD 0⟩
  | none => ⟨freshId, "[deleted]", "", 0, 0⟩

/-- A non-`t1` (or data-less) entry does not survive. -/
theorem survives_other (kind : Option String) (dataOpt : Option RawData)
    (ht1 : ∀ d, kind = some "t1" → dataOpt = some d → False) :
    survives (RawChild.mk kind dataOpt) = false := by
  rw [survives.eq_def]
  split
  · rename_i d hk hd
    exact (ht1 d (by simpa [RawChild.kind] using hk)
      (by simpa [RawChild.data] using hd)).elim
  · rfl

/-- Setting a fresh key appends the entry at the end. -/
theorem mapSet_fresh {α : Type} (m : List (String × α)) (k : String) (v : α)
    (h : m.any (fun e => e.1 == k) = false) :
    mapSet m k v = m ++ [(k, v)] := by
  rw [mapSet, if_neg (by rw [h]; exact Bool.false_ne_true)]

/-- A `mapGet` hit is exactly key membership. -/
theorem mapGet_isSome_iff {α : Type} (m : List (String × α)) (k : String) :
    (mapGet m k).isSome = true ↔ k ∈ m.map (fun e => e.1) := by
  rw [mapGet]
  cases hf : m.find? (fun e => e.1 == k) with
  | none =>
    simp only [Option.isSome_none]
    constructor
    · intro h; exact absurd h (by simp)
    · intro h
      rcases List.mem_map.mp h with ⟨e, hem, he⟩
      have := List.find?_eq_none.mp hf e hem
      simp [he] at this
  | some e =>
    simp only [Option.isSome_some, true_iff]
    have h1 := List.find?_some hf
    have h2 := List.mem_of_find?_eq_some hf
    refine List.mem_map.mpr ⟨e, h2, ?_⟩
    simpa using h1

/-- `mapGet` on a cons. -/
theorem mapGet_cons {α : Type} (e : String × α) (m : List (String × α))
    (k : String) :
    mapGet (e :: m) k =
      if (e.1 == k) = true then some e.2 else mapGet m k := by
  by_cases he : (e.1 == k) = true
  · rw [if_pos he, mapGet, @List.find?_cons_of_pos _ (fun e => e.1 == k) e m he]
  · rw [if_neg he, mapGet, @List.find?_cons_of_neg _ (fun e => e.1 == k) e m he,
      mapGet]

/-- `mapSet` walks past an entry with a different key. -/
theorem mapSet_cons_ne {α : Type} (e : String × α) (m : List (String × α))
    (k : String) (v : α) (h : (e.1 == k) = false) :
    mapSet (e :: m) k v = e :: mapSet m k v := by
  rw [mapSet, mapSet, List.any_cons, h, Bool.false_or]
  by_cases hm : (m.any fun e => e.1 == k) = true
  · rw [if_pos hm, if_pos hm, List.map_cons]
    rw [show (if (e.1 == k) = true then (k, v) else e) = e from if_neg (by
      rw [h]; exact Bool.false_ne_true)]
  · rw [if_neg hm, if_neg hm, List.cons_append]

/-- `mapSet` replaces in place at a matching head. -/
theorem mapSet_cons_eq {α : Type} (e : String × α) (m : List (String × α))
    (k : String) (v : α) (h : (e.1 == k) = true) :
    mapSet (e :: m) k v =
      (k, v) :: m.map (fun e => if (e.1 == k) = true then (k, v) else e) := by
  rw [mapSet, List.any_cons, h, Bool.true_or, if_pos rfl, List.map_cons,
    if_pos h]

/-- Replacing the value under `k` does not affect lookups at other keys. -/
theorem mapGet_map_replace {α : Type} (m : List (String × α)) (k k' : String)
    (v : α) (h : k' ≠ k) :
    mapGet (m.map (fun e => if (e.1 == k) = true then (k, v) else e)) k' =
      mapGet m k' := by
  induction m with
  | nil => rfl
  | cons e m' ih =>
    rw [List.map_cons]
    by_cases he : (e.1 == k) = true
    · rw [if_pos he, mapGet_cons, mapGet_cons, ih]
      have h1 : (k == k') = false := by
        simpa using fun hh => h hh.symm
      have h2 : (e.1 == k') = false := by
        have : e.1 = k := by simpa using he
        simpa [this] using fun hh => h hh.symm
      rw [h1, h2]
      simp
    · rw [if_neg he, mapGet_cons, mapGet_cons, ih]

/-- `mapGet` at the key just set. -/
theorem mapGet_set_eq {α : Type} (m : List (String × α)) (k : String)
    (v : α) : mapGet (mapSet m k v) k = some v := by
  induction m with
  | nil =>
    rw [mapSet]
    simp [mapGet]
  | cons e m' ih =>
    by_cases he : (e.1 == k) = true
    · rw [mapSet_cons_eq e m' k v he, mapGet_cons]
      simp
    · rw [mapSet_cons_ne e m' k v (by simpa using he), mapGet_cons,
        if_neg (by simpa using he)]
      exact ih

/-- `mapGet` at a different key than the one just set. -/
theorem mapGet_set_ne {α : Type} (m : List (String × α)) (k k' : String)
    (v : α) (h : k' ≠ k) : mapGet (mapSet m k v) k' = mapGet m k' := by
  induction m with
  | nil =>
    have h1 : (k == k') = false := by
      simpa using fun hh => h hh.symm
    simp [mapSet, mapGet, List.find?, h1]
  | cons e m' ih =>
    by_cases he : (e.1 == k) = true
    · rw [mapSet_cons_eq e m' k v he, mapGet_cons, mapGet_cons,
        mapGet_map_replace m' k k' v h]
      have h1 : (k == k') = false := by
        simpa using fun hh => h hh.symm
      have h2 : e.1 = k := by simpa using he
      rw [h2, h1]
      simp
    · rw [mapSet_cons_ne e m' k v (by simpa using he), mapGet_cons,
        mapGet_cons, ih]

/-- `mapGetD` at the key just set. -/
theorem mapGetD_set_eq {α : Type} (m : List (String × α)) (k : String)
    (v d : α) : mapGetD (mapSet m k v) k d = v := by
  rw [mapGetD, mapGet_set_eq]
  rfl

/-- `mapGetD` at a different key than the one just set. -/
theorem mapGetD_set_ne {α : Type} (m : List (String × α)) (k k' : String)
    (v : α) (d : α) (h : k' ≠ k) :
    mapGetD (mapSet m k v) k' d = mapGetD m k' d := by
  rw [mapGetD, mapGet_set_ne m k k' v h, mapGetD]


/-- `survives` on a well-formed `t1` entry is the non-blank-body test. -/
theorem survives_t1 (d : RawData) :
    survives (RawChild.mk (some "t1") (some d)) =
      !isBlank ((d.body).getD "") := rfl

/-- `entryId` on an entry carrying data. -/
theorem entryId_mk (kind : Option String) (d : RawData) :
    entryId (RawChild.mk kind (some d)) = (d.id).getD freshId := rfl

/-- `entryParent` on an entry carrying data. -/
theorem entryParent_mk (kind : Option String) (d : RawData) :
    entryParent (RawChild.mk kind (some d)) = (d.parentId).getD "" := rfl

/-- `entryCore` on an entry carrying data. -/
theorem entryCore_mk (kind : Option String) (d : RawData) :
    entryCore (RawChild.mk kind (some d)) =
      ⟨(d.id).getD freshId, (d.author).getD "[deleted]", (d.body).getD "",
        (d.score).getD 0, (d.createdUtc).getD 0⟩ := rfl

/-- A key not among a map's keys fails the `Map.has` existence test. -/
theorem any_key_eq_false {α : Type} (m : List (String × α)) (k : String)
    (h : k ∉ m.map (fun e => e.1)) :
    (m.any fun e => e.1 == k) = false := by
  rw [List.any_eq_false]
  intro e hem heq
  exact h (List.mem_map.mpr ⟨e, hem, by simpa using heq⟩)

/-- The first flat loop, when the surviving entries carry pairwise distinct
ids, appends exactly one `(id, core)` pair to `nodeMap` and one
`(id, parent)` pair to `parentMap` per surviving entry, in input order. -/
theorem flatPass1Go_spec (things : List RawChild)
    (nm : List (String × NodeCore)) (pm : List (String × String)) :
    pm.map (fun e => e.1) = nm.map (fun e => e.1) →
    (nm.map (fun e => e.1) ++
      (things.filter survives).map entryId).Nodup →
    flatPass1Go things nm pm =
      (nm ++ (things.filter survives).map (fun t => (entryId t, entryCore t)),
       pm ++
        (things.filter survives).map (fun t => (entryId t, entryParent t))) := by
  induction things, nm, pm using flatPass1Go.induct with
  | case1 nm pm =>
    intro hk hnd
    simp
  | case2 nm pm rest d hb ih =>
    intro hk hnd
    rw [flatPass1Go_blank _ _ _ _ hb]
    have hs : survives (RawChild.mk (some "t1") (some d)) = false := by
      rw [survives_t1, hb]
      rfl
    simp only [List.filter_cons, hs, if_false, Bool.false_eq_true] at hnd ⊢
    exact ih hk hnd
  | case3 nm pm rest d hb ih =>
    intro hk hnd
    rw [flatPass1Go_t1 _ _ _ _ hb]
    have hb' : isBlank ((d.body).getD "") = false := by simpa using hb
    have hs : survives (RawChild.mk (some "t1") (some d)) = true := by
      rw [survives_t1, hb']
      rfl
    simp only [List.filter_cons, hs, if_true, List.map_cons, entryId_mk] at hnd ⊢
    have hnx : (d.id).getD freshId ∉ nm.map (fun e => e.1) := fun hxA =>
      (List.nodup_append.mp hnd).2.2 hxA (List.mem_cons_self _ _)
    have hfnm := any_key_eq_false nm _ hnx
    have hfpm := any_key_eq_false pm _ (by rw [hk]; exact hnx)
    rw [mapSet_fresh nm _ _ hfnm, mapSet_fresh pm _ _ hfpm] at ih ⊢
    have hk' : (pm ++ [((d.id).getD freshId, (d.parentId).getD "")]).map
          (fun e => e.1) =
        (nm ++ [((d.id).getD freshId,
          (⟨(d.id).getD freshId, (d.author).getD "[deleted]",
            (d.body).getD "", (d.score).getD 0,
            (d.createdUtc).getD 0⟩ : NodeCore))]).map (fun e => e.1) := by
      simp [hk]
    have hnd' : ((nm ++ [((d.id).getD freshId,
          (⟨(d.id).getD freshId, (d.author).getD "[deleted]",
            (d.body).getD "", (d.score).getD 0,
            (d.createdUtc).getD 0⟩ : NodeCore))]).map (fun e => e.1) ++
        (rest.filter survives).map entryId).Nodup := by
      simpa [List.append_assoc] using hnd
    rw [ih hk' hnd']
    simp [entryId_mk, entryCore_mk, entryParent_mk]
  | case4 nm pm kind dataOpt rest ht1 ih =>
    intro hk hnd
    rw [flatPass1Go_other _ _ _ _ _ ht1]
    have hs : survives (RawChild.mk kind dataOpt) = false :=
      survives_other kind dataOpt ht1
    simp only [List.filter_cons, hs, if_false, Bool.false_eq_true] at hnd ⊢
    exact ih hk hnd

/-- `flatPass1` under distinct surviving ids: the two maps list the
surviving entries in input order. -/
theorem flatPass1_spec (things : List RawChild)
    (hnd : ((things.filter survives).map entryId).Nodup) :
    flatPass1 things =
      ((things.filter survives).map (fun t => (entryId t, entryCore t)),
       (things.filter survives).map (fun t => (entryId t, entryParent t))) := by
  have h := flatPass1Go_spec things [] [] rfl (by simpa using hnd)
  simpa [flatPass1] using h

/-- One step of the attachment loop. -/
theorem flatKidsGo_cons (nm : List (String × NodeCore))
    (e : String × String) (rest : List (String × String))
    (km : List (String × List String)) :
    flatKidsGo nm (e :: rest) km =
      if (mapGet nm (stripTag e.2)).isSome then
        if (mapGet nm e.1).isSome then
          flatKidsGo nm rest
            (mapSet km (stripTag e.2) (mapGetD km (stripTag e.2) [] ++ [e.1]))
        else flatKidsGo nm rest km
      else flatKidsGo nm rest km := rfl

/-- One step of the grouping loop. -/
theorem flatByParentGo_cons (nm : List (String × NodeCore))
    (e : String × String) (rest : List (String × String))
    (bp : List (String × List String)) :
    flatByParentGo nm (e :: rest) bp =
      if (mapGet nm (stripTag e.2)).isNone then
        if (mapGet nm e.1).isSome then
          flatByParentGo nm rest
            (mapSet bp e.2 (mapGetD bp e.2 [] ++ [e.1]))
        else flatByParentGo nm rest bp
      else flatByParentGo nm rest bp := rfl

/-- Per-key content of the attachment loop: under key `i` it appends, in
input order, the ids of exactly those entries whose stripped parent ref is
a known node id equal to `i` (and whose own id is a known node id). -/
theorem flatKidsGo_getD (nm : List (String × NodeCore))
    (entries : List (String × String)) (i : String) :
    ∀ km, mapGetD (flatKidsGo nm entries km) i [] =
      mapGetD km i [] ++
        ((entries.filter (fun e =>
          (mapGet nm (stripTag e.2)).isSome &&
          ((mapGet nm e.1).isSome && (stripTag e.2 == i)))).map
            (fun e => e.1)) := by
  induction entries with
  | nil =>
    intro km
    simp [flatKidsGo]
  | cons e rest ih =>
    intro km
    rw [flatKidsGo_cons]
    by_cases h1 : (mapGet nm (stripTag e.2)).isSome = true
    · rw [if_pos h1]
      by_cases h2 : (mapGet nm e.1).isSome = true
      · rw [if_pos h2, ih]
        by_cases h3 : (stripTag e.2 == i) = true
        · have he : stripTag e.2 = i := by simpa using h3
          rw [List.filter_cons]
          simp only [h1, h2, h3, Bool.and_self, Bool.and_true, if_pos]
          rw [he, mapGetD_set_eq]
          simp
        · have hne : i ≠ stripTag e.2 := fun hh => h3 (by simp [hh])
          rw [mapGetD_set_ne km (stripTag e.2) i _ [] hne, List.filter_cons]
          have h3' : (stripTag e.2 == i) = false := by simpa using h3
          simp [h3']
      · rw [if_neg h2, ih, List.filter_cons]
        have h2' : (mapGet nm e.1).isSome = false := by simpa using h2
        simp [h2']
    · rw [if_neg h1, ih, List.filter_cons]
      have h1' : (mapGet nm (stripTag e.2)).isSome = false := by simpa using h1
      simp [h1']

/-- Per-key content of the grouping loop: under key `p` it appends, in
input order, the ids of exactly those entries whose stripped parent ref is
not a known node id and whose unstripped parent ref equals `p` (and whose
own id is a known node id). -/
theorem flatByParentGo_getD (nm : List (String × NodeCore))
    (entries : List (String × String)) (p : String) :
    ∀ bp, mapGetD (flatByParentGo nm entries bp) p [] =
      mapGetD bp p [] ++
        ((entries.filter (fun e =>
          (mapGet nm (stripTag e.2)).isNone &&
          ((mapGet nm e.1).isSome && (e.2 == p)))).map (fun e => e.1)) := by
  induction entries with
  | nil =>
    intro bp
    simp [flatByParentGo]
  | cons e rest ih =>
    intro bp
    rw [flatByParentGo_cons]
    by_cases h1 : (mapGet nm (stripTag e.2)).isNone = true
    · rw [if_pos h1]
      by_cases h2 : (mapGet nm e.1).isSome = true
      · rw [if_pos h2, ih]
        by_cases h3 : (e.2 == p) = true
        · have he : e.2 = p := by simpa using h3
          rw [List.filter_cons]
          simp only [h1, h2, h3, Bool.and_self, Bool.and_true, if_pos]
          rw [he, mapGetD_set_eq]
          simp
        · have hne : p ≠ e.2 := fun hh => h3 (by simp [hh])
          rw [mapGetD_set_ne bp e.2 p _ [] hne, List.filter_cons]
          have h3' : (e.2 == p) = false := by simpa using h3
          simp [h3']
      · rw [if_neg h2, ih, List.filter_cons]
        have h2' : (mapGet nm e.1).isSome = false := by simpa using h2
        simp [h2']
    · rw [if_neg h1, ih, List.filter_cons]
      have h1' : (mapGet nm (stripTag e.2)).isNone = false :=
        Bool.eq_false_iff.mpr h1
      simp [h1']

/-- A `mapGet` hit is the decidable key-membership test. -/
theorem mapGet_isSome_eq_decide {α : Type} (m : List (String × α))
    (k : String) :
    (mapGet m k).isSome = decide (k ∈ m.map (fun e => e.1)) := by
  by_cases h : k ∈ m.map (fun e => e.1)
  · rw [(mapGet_isSome_iff m k).mpr h, decide_eq_true h]
  · have h1 : (mapGet m k).isSome = false :=
      Bool.eq_false_iff.mpr (fun hc => h ((mapGet_isSome_iff m k).mp hc))
    rw [h1, decide_eq_false h]

/-- A `mapGet` miss is the negated `mapGet` hit. -/
theorem mapGet_isNone_eq {α : Type} (m : List (String × α)) (k : String) :
    (mapGet m k).isNone = !(mapGet m k).isSome := by
  cases mapGet m k <;> rfl

/-- The keys of the id-indexed core list are the entry ids. -/
theorem map_fst_pairs (s : List RawChild) :
    (s.map (fun t => (entryId t, entryCore t))).map (fun e => e.1) =
      s.map entryId := by
  rw [List.map_map]
  rfl

/-- Filtering the id-indexed parent list and projecting the ids is filtering
the entries themselves and projecting their ids. -/
theorem filter_pairs_map_fst (s : List RawChild)
    (p : String × String → Bool) (q : RawChild → Bool)
    (h : ∀ t ∈ s, p (entryId t, entryParent t) = q t) :
    ((s.map (fun t => (entryId t, entryParent t))).filter p).map
        (fun e => e.1) =
      (s.filter q).map entryId := by
  rw [List.filter_map, List.map_map]
  have h2 : ∀ t ∈ s, (p ∘ fun t => (entryId t, entryParent t)) t = q t := h
  rw [List.filter_congr h2]
  rfl

/-- C3: for every flat raw batch whose surviving entries (kind `t1`, data
present, non-blank body) carry pairwise distinct ids, `buildTreeFromFlat`
produces a node per surviving entry in input order; every surviving entry
whose type-tag-stripped parent reference equals the short id of a surviving
entry of the same batch is attached as a reply under that id (siblings in
input order); every other surviving entry is grouped in the returned
mapping under its unstripped parent reference; the builder itself takes no
tree argument and so attaches nothing to the main tree. -/
theorem flat_builder_grouping (things : List RawChild)
    (hnd : ((things.filter survives).map entryId).Nodup) :
    (buildTreeFromFlat things).nodes =
        (things.filter survives).map (fun t => (entryId t, entryCore t)) ∧
      (buildTreeFromFlat things).allIds =
        (things.filter survives).map entryId ∧
      (∀ i, mapGetD (buildTreeFromFlat things).kids i [] =
        ((things.filter survives).filter (fun t =>
            decide (stripTag (entryParent t) ∈
              (things.filter survives).map entryId) &&
            (stripTag (entryParent t) == i))).map entryId) ∧
      (∀ p, mapGetD (buildTreeFromFlat things).byParent p [] =
        ((things.filter survives).filter (fun t =>
            !decide (stripTag (entryParent t) ∈
              (things.filter survives).map entryId) &&
            (entryParent t == p))).map entryId) := by
  have hp := flatPass1_spec things hnd
  have hb : buildTreeFromFlat things =
      { nodes :=
          (things.filter survives).map (fun t => (entryId t, entryCore t))
        kids := flatKids
          ((things.filter survives).map (fun t => (entryId t, entryCore t)))
          ((things.filter survives).map (fun t => (entryId t, entryParent t)))
        byParent := flatByParent
          ((things.filter survives).map (fun t => (entryId t, entryCore t)))
          ((things.filter survives).map (fun t => (entryId t, entryParent t)))
        allIds :=
          ((things.filter survives).map
            (fun t => (entryId t, entryCore t))).map (fun e => e.1) } := by
    rw [buildTreeFromFlat, hp]
  refine ⟨?_, ?_, ?_, ?_⟩
  · rw [hb]
  · rw [hb]
    exact map_fst_pairs (things.filter survives)
  · intro i
    rw [hb]
    show mapGetD (flatKids _ _) i [] = _
    rw [flatKids, flatKidsGo_getD _ _ i []]
    rw [show mapGetD ([] : List (String × List String)) i [] = [] from rfl,
      List.nil_append]
    refine filter_pairs_map_fst (things.filter survives) _ _ ?_
    intro t ht
    show ((mapGet ((things.filter survives).map
          (fun t => (entryId t, entryCore t))) (stripTag (entryParent t))).isSome &&
        ((mapGet ((things.filter survives).map
          (fun t => (entryId t, entryCore t))) (entryId t)).isSome &&
          (stripTag (entryParent t) == i))) = _
    rw [mapGet_isSome_eq_decide, mapGet_isSome_eq_decide, map_fst_pairs]
    rw [decide_eq_true (List.mem_map.mpr ⟨t, ht, rfl⟩), Bool.true_and]
  · intro p
    rw [hb]
    show mapGetD (flatByParent _ _) p [] = _
    rw [flatByParent, flatByParentGo_getD _ _ p []]
    rw [show mapGetD ([] : List (String × List String)) p [] = [] from rfl,
      List.nil_append]
    refine filter_pairs_map_fst (things.filter survives) _ _ ?_
    intro t ht
    show ((mapGet ((things.filter survives).map
          (fun t => (entryId t, entryCore t))) (stripTag (entryParent t))).isNone &&
        ((mapGet ((things.filter survives).map
          (fun t => (entryId t, entryCore t))) (entryId t)).isSome &&
          (entryParent t == p))) = _
    rw [mapGet_isNone_eq, mapGet_isSome_eq_decide, mapGet_isSome_eq_decide,
      map_fst_pairs]
    rw [decide_eq_true (List.mem_map.mpr ⟨t, ht, rfl⟩), Bool.true_and]

/-- A concrete three-entry flat batch: a comment `a` parented at the thread
root, a comment `b` parented at `a`, and a `more` entry. -/
def cw3Things : List RawChild :=
  [RawChild.mk (some "t1") (some (RawData.mk (some "a") (some "u1")
      (some "hi") (some 1) (some 10) none (some "t3_post") .absent)),
   RawChild.mk (some "t1") (some (RawData.mk (some "b") (some "u2")
      (some "yo") (some 2) (some 20) none (some "t1_a") .absent)),
   RawChild.mk (some "more") none]

theorem flat_builder_grouping_witness :
    mapGetD (buildTreeFromFlat cw3Things).kids "a" [] = ["b"] ∧
    mapGetD (buildTreeFromFlat cw3Things).byParent "t3_post" [] = ["a"] := by
  have h := flat_builder_grouping cw3Things (by decide)
  refine ⟨?_, ?_⟩
  · rw [h.2.2.1 "a"]
    rfl
  · rw [h.2.2.2 "t3_post"]
    rfl

/-- A concrete leaf comment `a`. -/
def wNa : RedditCommentNode := .mk "a" "u" "hi" 1 2 []

/-- A concrete leaf comment `b`. -/
def wNb : RedditCommentNode := .mk "b" "u" "yo" 3 4 []

/-- `a` matches the parent reference `t1_a`. -/
theorem wMatch : matchesRef wNa "t1_a" = true := by decide

/-- Splicing `[b]` under `t1_a` into `[a]` succeeds at the root. -/
theorem wIns_eq : insertIntoTree [wNa] "t1_a" [wNb] =
    (true, wNa.withReplies (wNa.replies ++ [wNb]) :: []) :=
  insertIntoTree_cons_match wNa [] [wNb] "t1_a" wMatch

/-- The search finds `a` at path `[0]`. -/
theorem wFMP : firstMatchPath [wNa] "t1_a" = some [0] :=
  firstMatchPath_cons_match wNa [] "t1_a" wMatch

/-- A transport that throws on every batch. -/
def wTr (_ : List String) : BatchResult := .netError

theorem count_bound_nested_pass_only_witness :
    ((parseComments .notArray 0 ⟨0, []⟩).2).count ≤ MAX_COMMENTS ∧
    sizeForest (parseComments .notArray 0 ⟨0, []⟩).1 ≤ MAX_COMMENTS - 0 ∧
    sizeForest (insertIntoTree [wNa] "t1_a" [wNb]).2 =
      sizeForest [wNa] + sizeForest [wNb] := by
  have h := count_bound_nested_pass_only .notArray 0 ⟨0, []⟩ [wNa] [wNb]
    "t1_a"
  have hins : (insertIntoTree [wNa] "t1_a" [wNb]).1 = true := by
    rw [wIns_eq]
  exact ⟨h.1 (by decide), h.2.1 (by decide), h.2.2 hins⟩

theorem splice_and_fallback_spec_witness :
    nodeAt (insertIntoTree [wNa] "t1_a" [wNb]).2 [0] =
      some (wNa.withReplies (wNa.replies ++ [wNb])) ∧
    spliceOne "p" [wNb] "t1_a" [wNa] = [wNb] := by
  have h1 := splice_and_fallback_spec [wNa] "t1_a" [wNb] "p"
  have h2 := splice_and_fallback_spec [wNb] "t1_a" [wNa] "p"
  have hins : (insertIntoTree [wNa] "t1_a" [wNb]).1 = true := by
    rw [wIns_eq]
  have hez : anyMatch [wNb] "t1_a" = false := by
    rw [anyMatch_cons]
    show (matchesRef wNb "t1_a" || anyMatch [] "t1_a" ||
      anyMatch [] "t1_a") = false
    rw [anyMatch_nil]
    decide
  constructor
  · obtain ⟨π, m, hπ, hm, hmr, heq, hnode⟩ := h1.2.1 hins
    rw [wFMP] at hπ
    injection hπ with hπ
    subst hπ
    have hm0 : nodeAt [wNa] [0] = some wNa := rfl
    rw [hm0] at hm
    injection hm with hm
    subst hm
    exact hnode
  · exact ((h2.2.2 hez).2.2 (by decide)).1

theorem resolver_failure_degrades_witness :
    resolveAndSplice .notArray "p" (.error ()) =
      (parseComments .notArray 0 ⟨0, []⟩).1 ∧
    resolveAndSplice .notArray "p"
        (.ok (fetchMoreChildren
          ((((parseComments .notArray 0 ⟨0, []⟩).2).stubs.map
            (fun s => s.childIds)).flatten) wTr)) =
      (parseComments .notArray 0 ⟨0, []⟩).1 := by
  have h := resolver_failure_degrades .notArray "p"
  exact ⟨h.1 (), h.2 wTr (fun batch => rfl)⟩

theorem nested_depth_bound_witness :
    parseComments (.arr [RawChild.mk none none]) 21 ⟨0, []⟩ = ([], ⟨0, []⟩) ∧
    parseComments (.arr [RawChild.mk none none]) 0 ⟨2000, []⟩ =
      ([], ⟨2000, []⟩) := by
  have h1 := nested_depth_bound .notArray [RawChild.mk none none] 21 ⟨0, []⟩
    [] "x" []
  have h2 := nested_depth_bound .notArray [RawChild.mk none none] 0 ⟨2000, []⟩
    [] "x" []
  exact ⟨h1.2.1 (by decide), h2.2.2.1 (by decide)⟩

theorem nested_count_discipline_witness :
    parseList [RawChild.mk (some "t1")
        (some (RawData.mk none none none none none none none .absent))]
        0 ⟨0, []⟩ =
      parseList [] 0 ⟨0, []⟩ ∧
    parseList [RawChild.mk none none] 0 ⟨2000, []⟩ = ([], ⟨2000, []⟩) := by
  have h1 := nested_count_discipline [] []
    (RawChild.mk none none) 0 (⟨0, []⟩ : ParseState)
    (RawData.mk none none none none none none none .absent)
  have h2 := nested_count_discipline [] [] (RawChild.mk none none) 0
    (⟨2000, []⟩ : ParseState)
    (RawData.mk none none none none none none none .absent)
  exact ⟨h1.2.1 (by decide) (by decide), h2.2.2 (by decide)⟩

theorem fetch_batches_spec_witness :
    fetchMoreChildren ["x"] wTr = [] ∧ (chunks ["x"]).flatten = ["x"] := by
  have h := fetch_batches_spec ["x"] wTr
  exact ⟨h.2.2.2 (fun batch => rfl), h.2.1⟩

theorem splice_not_idempotent_witness :
    (insertIntoTree (insertIntoTree [wNa] "t1_a" [wNb]).2 "t1_a" [wNb]).1 =
      true ∧
    nodeAt (insertIntoTree (insertIntoTree [wNa] "t1_a" [wNb]).2
        "t1_a" [wNb]).2 [0] =
      some (wNa.withReplies (wNa.replies ++ [wNb] ++ [wNb])) := by
  have hins : (insertIntoTree [wNa] "t1_a" [wNb]).1 = true := by
    rw [wIns_eq]
  obtain ⟨π, m, hπ, hm, hmore, hnode⟩ :=
    splice_not_idempotent [wNa] "t1_a" [wNb] hins
  rw [wFMP] at hπ
  injection hπ with hπ
  subst hπ
  have hm0 : nodeAt [wNa] [0] = some wNa := rfl
  rw [hm0] at hm
  injection hm with hm
  subst hm
  exact ⟨hmore, hnode⟩

theorem splice_frame_witness :
    (insertIntoTree [wNb] "t1_a" [wNa]).2 = [wNb] ∧
    (insertIntoTree [wNa] "t1_a" [wNb]).2 = appendAt [wNa] [0] [wNb] := by
  have hmiss : insertIntoTree [wNb] "t1_a" [wNa] =
      ((insertIntoTree [] "t1_a" [wNa]).1,
        wNb.withReplies [] :: (insertIntoTree [] "t1_a" [wNa]).2) :=
    insertIntoTree_cons_miss wNb [] [wNa] [] "t1_a" (by decide)
      (insertIntoTree_nil "t1_a" [wNa])
  have hfalse : (insertIntoTree [wNb] "t1_a" [wNa]).1 = false := by
    rw [hmiss, insertIntoTree_nil]
  have hins : (insertIntoTree [wNa] "t1_a" [wNb]).1 = true := by
    rw [wIns_eq]
  constructor
  · rw [(splice_frame [wNb] "t1_a" [wNa]).1 hfalse]
  · obtain ⟨π, m, hπ, hm, happ, hnode, hframe⟩ :=
      (splice_frame [wNa] "t1_a" [wNb]).2 hins
    rw [wFMP] at hπ
    injection hπ with hπ
    subst hπ
    exact happ

end Limen

